import Mathlib

/-!
p2p-filestorage: a shallow embedding of the store, the codecs and the file server.

The development follows the Go sources file by file.

* `crypto.go`: `hashKey`, `copyStream`, `copyDecrypt`, `copyEncrypt`
* `store.go`: `CASPathTransformFunc`, `PathKey`, `NewStore`, `Store.Has`, `Store.Delete`,
  `Store.Write`, `Store.WriteDecrypt`, `Store.Read`
* `p2p/encoding.go`, `p2p/message.go`: `RPC`, `DefaultDecoder.Decode`
* `server.go`: `NewFileServer`, `FileServer.broadcast`, `FileServer.Store`, `FileServer.Get`,
  `FileServer.handleMessageGetFile`, `FileServer.handleMessageStoreFile`

What the Go standard library and the operating system provide is modelled explicitly:

* a Go `string` is a Lean `String`; the strings that are sliced by byte offset are hex
  strings, for which byte offsets and character offsets coincide;
* `crypto/sha1`, `crypto/md5` and `encoding/hex` are implemented in full (`sha1Sum`, `md5Sum`,
  `hexEncodeToString`), with 32-bit words as naturals reduced modulo `2 ^ 32`;
* the AES block function and the gob encoder are the fields of `Env`; `rand.Reader` is a
  reader passed to the functions that draw from it;
* an `io.Reader` is the list of byte slices it will still deliver, one per `Read` call at
  most, and the error it reports once they are used up (`Reader`);
* the file system is a map from path strings to nodes (`FS`); a path lies under a
  directory when the directory is one of the prefixes of the path that end right before a
  separator. The failures are the structural ones (missing parent, file in the place of a
  directory, directory in the place of a file), the limit of Linux on the length of a path
  (`PATH_MAX`), and the two refusals of `os.RemoveAll` for a path that ends in `.` or `..`.
  Two paths are the same node only when they are the same string: an empty component, `.`
  and `..` inside a path and symbolic links are not resolved, so the statements about two
  different owners or about what a removal leaves in place carry the hypothesis that the
  names involved are directory names (`isDirName`). Permissions, the limit on the length of
  one component and input/output errors are not modelled.
-/

namespace P2P

/-! ## Bytes, hexadecimal text, digests -/

abbrev Byte := UInt8

/-- The digit of `encoding/hex` for a value below sixteen. -/
def hexDigit (n : Nat) : Char := "0123456789abcdef".data.getD n '0'

/-- Go `hex.EncodeToString`: two lower-case digits per byte, high nibble first. -/
def hexEncodeToString (bs : List Byte) : String :=
  String.mk (bs.flatMap fun b => [hexDigit (b.toNat / 16), hexDigit (b.toNat % 16)])

/-- Go `[]byte(s)`: the UTF-8 bytes of a string. -/
def stringBytes (s : String) : List Byte := s.data.flatMap String.utf8EncodeChar

/-- Rotation to the left of a 32-bit word. -/
def rotl32 (x n : Nat) : Nat := ((x <<< n) ||| (x >>> (32 - n))) % 2 ^ 32

/-- The `i`-th big-endian 32-bit word of a block of bytes. -/
def be32 (bs : List Nat) (i : Nat) : Nat :=
  bs.getD (4 * i) 0 <<< 24 ||| bs.getD (4 * i + 1) 0 <<< 16 |||
    bs.getD (4 * i + 2) 0 <<< 8 ||| bs.getD (4 * i + 3) 0

/-- The `i`-th little-endian 32-bit word of a block of bytes. -/
def le32 (bs : List Nat) (i : Nat) : Nat :=
  bs.getD (4 * i + 3) 0 <<< 24 ||| bs.getD (4 * i + 2) 0 <<< 16 |||
    bs.getD (4 * i + 1) 0 <<< 8 ||| bs.getD (4 * i) 0

/-- The `k` low bytes of `n`, least significant first. -/
def natBytesLE (n k : Nat) : List Nat := (List.range k).map fun i => (n >>> (8 * i)) % 256

/-- The `k` low bytes of `n`, most significant first. -/
def natBytesBE (n k : Nat) : List Nat := (natBytesLE n k).reverse

/-- Merkle-Damgard padding shared by MD5 and SHA-1: a `0x80` byte, zeros up to 56 modulo 64,
then the eight bytes of the bit length in the byte order of the digest. -/
def mdPad (msg : List Nat) (lenBytes : List Nat) : List Nat :=
  msg ++ [0x80] ++ List.replicate ((119 - msg.length % 64) % 64) 0 ++ lenBytes

/-- The 64-byte blocks of a padded message. -/
def mdBlocks (p : List Nat) : List (List Nat) :=
  (List.range (p.length / 64)).map fun i => (p.drop (64 * i)).take 64

/-- The 80-word message schedule of SHA-1. -/
def sha1Schedule (blk : List Nat) : List Nat :=
  (List.range 64).foldl
    (fun w t =>
      w ++ [rotl32 (w.getD (t + 13) 0 ^^^ w.getD (t + 8) 0 ^^^ w.getD (t + 2) 0 ^^^ w.getD t 0) 1])
    ((List.range 16).map (be32 blk))

/-- The five chaining words of SHA-1. -/
structure Sha1State where
  h0 : Nat
  h1 : Nat
  h2 : Nat
  h3 : Nat
  h4 : Nat

/-- One of the 80 rounds of SHA-1. -/
def sha1Round (w : List Nat) (s : Sha1State) (t : Nat) : Sha1State :=
  let f := if t < 20 then (s.h1 &&& s.h2) ||| ((s.h1 ^^^ 0xffffffff) &&& s.h3)
    else if t < 40 then s.h1 ^^^ s.h2 ^^^ s.h3
    else if t < 60 then (s.h1 &&& s.h2) ||| (s.h1 &&& s.h3) ||| (s.h2 &&& s.h3)
    else s.h1 ^^^ s.h2 ^^^ s.h3
  let k := if t < 20 then 0x5a827999 else if t < 40 then 0x6ed9eba1
    else if t < 60 then 0x8f1bbcdc else 0xca62c1d6
  ⟨(rotl32 s.h0 5 + f + s.h4 + k + w.getD t 0) % 2 ^ 32, s.h0, rotl32 s.h1 30, s.h2, s.h3⟩

/-- The SHA-1 compression of one block. -/
def sha1Block (s : Sha1State) (blk : List Nat) : Sha1State :=
  let r := (List.range 80).foldl (sha1Round (sha1Schedule blk)) s
  ⟨(s.h0 + r.h0) % 2 ^ 32, (s.h1 + r.h1) % 2 ^ 32, (s.h2 + r.h2) % 2 ^ 32,
   (s.h3 + r.h3) % 2 ^ 32, (s.h4 + r.h4) % 2 ^ 32⟩

/-- Go `sha1.Sum`: the 20-byte SHA-1 digest. -/
def sha1Sum (msg : List Byte) : List Byte :=
  let m := msg.map (·.toNat)
  let s := (mdBlocks (mdPad m (natBytesBE (8 * m.length) 8))).foldl sha1Block
    ⟨0x67452301, 0xefcdab89, 0x98badcfe, 0x10325476, 0xc3d2e1f0⟩
  ([s.h0, s.h1, s.h2, s.h3, s.h4].flatMap fun w => natBytesBE w 4).map UInt8.ofNat

/-- The per-round rotation amounts of MD5. -/
def md5S : List Nat :=
  [7, 12, 17, 22, 7, 12, 17, 22, 7, 12, 17, 22, 7, 12, 17, 22,
   5, 9, 14, 20, 5, 9, 14, 20, 5, 9, 14, 20, 5, 9, 14, 20,
   4, 11, 16, 23, 4, 11, 16, 23, 4, 11, 16, 23, 4, 11, 16, 23,
   6, 10, 15, 21, 6, 10, 15, 21, 6, 10, 15, 21, 6, 10, 15, 21]

/-- The per-round additive constants of MD5. -/
def md5K : List Nat :=
  [0xd76aa478, 0xe8c7b756, 0x242070db, 0xc1bdceee, 0xf57c0faf, 0x4787c62a, 0xa8304613, 0xfd469501,
   0x698098d8, 0x8b44f7af, 0xffff5bb1, 0x895cd7be, 0x6b901122, 0xfd987193, 0xa679438e, 0x49b40821,
   0xf61e2562, 0xc040b340, 0x265e5a51, 0xe9b6c7aa, 0xd62f105d, 0x02441453, 0xd8a1e681, 0xe7d3fbc8,
   0x21e1cde6, 0xc33707d6, 0xf4d50d87, 0x455a14ed, 0xa9e3e905, 0xfcefa3f8, 0x676f02d9, 0x8d2a4c8a,
   0xfffa3942, 0x8771f681, 0x6d9d6122, 0xfde5380c, 0xa4beea44, 0x4bdecfa9, 0xf6bb4b60, 0xbebfbc70,
   0x289b7ec6, 0xeaa127fa, 0xd4ef3085, 0x04881d05, 0xd9d4d039, 0xe6db99e5, 0x1fa27cf8, 0xc4ac5665,
   0xf4292244, 0x432aff97, 0xab9423a7, 0xfc93a039, 0x655b59c3, 0x8f0ccc92, 0xffeff47d, 0x85845dd1,
   0x6fa87e4f, 0xfe2ce6e0, 0xa3014314, 0x4e0811a1, 0xf7537e82, 0xbd3af235, 0x2ad7d2bb, 0xeb86d391]

/-- The four chaining words of MD5. -/
structure Md5State where
  a : Nat
  b : Nat
  c : Nat
  d : Nat

/-- One of the 64 rounds of MD5. -/
def md5Round (blk : List Nat) (s : Md5State) (i : Nat) : Md5State :=
  let nb := s.b ^^^ 0xffffffff
  let nd := s.d ^^^ 0xffffffff
  let f := if i < 16 then (s.b &&& s.c) ||| (nb &&& s.d)
    else if i < 32 then (s.d &&& s.b) ||| (nd &&& s.c)
    else if i < 48 then s.b ^^^ s.c ^^^ s.d
    else s.c ^^^ (s.b ||| nd)
  let g := if i < 16 then i else if i < 32 then (5 * i + 1) % 16
    else if i < 48 then (3 * i + 5) % 16 else (7 * i) % 16
  let x := (s.a + f + md5K.getD i 0 + le32 blk g) % 2 ^ 32
  ⟨s.d, (s.b + rotl32 x (md5S.getD i 0)) % 2 ^ 32, s.b, s.c⟩

/-- The MD5 compression of one block. -/
def md5Block (s : Md5State) (blk : List Nat) : Md5State :=
  let r := (List.range 64).foldl (md5Round blk) s
  ⟨(s.a + r.a) % 2 ^ 32, (s.b + r.b) % 2 ^ 32, (s.c + r.c) % 2 ^ 32, (s.d + r.d) % 2 ^ 32⟩

/-- Go `md5.Sum`: the 16-byte MD5 digest. -/
def md5Sum (msg : List Byte) : List Byte :=
  let m := msg.map (·.toNat)
  let s := (mdBlocks (mdPad m (natBytesLE (8 * m.length) 8))).foldl md5Block
    ⟨0x67452301, 0xefcdab89, 0x98badcfe, 0x10325476⟩
  ([s.a, s.b, s.c, s.d].flatMap fun w => natBytesLE w 4).map UInt8.ofNat

/-- Source `hashKey` (crypto.go:20): the hex MD5 of the key. -/
def hashKey (key : String) : String := hexEncodeToString (md5Sum (stringBytes key))

/-! ## Path transforms (store.go) -/

/-- Source `PathKey` (store.go:41). -/
structure PathKey where
  PathName : String
  Filename : String
  deriving DecidableEq, Repr

/-- Go `s[from:to]` on a string whose characters are single bytes. -/
def goSlice (s : String) (lo hi : Nat) : String := String.mk ((s.data.drop lo).take (hi - lo))

/-- Go `strings.Join(parts, sep)`. -/
def stringsJoin : List String → String → String
  | [], _ => ""
  | [a], _ => a
  | a :: b :: rest, sep => a ++ sep ++ stringsJoin (b :: rest) sep

/-- The pieces of a character list between occurrences of `sep`; never empty. -/
def splitChars (sep : Char) : List Char → List (List Char)
  | [] => [[]]
  | c :: cs =>
    if c = sep then [] :: splitChars sep cs
    else match splitChars sep cs with
      | [] => [[c]]
      | h :: t => (c :: h) :: t

/-- Go `strings.Split(s, sep)` for a one-character separator. -/
def stringsSplit (s : String) (sep : Char) : List String := (splitChars sep s.data).map String.mk

/-- Source `CASPathTransformFunc` (store.go:17). -/
def CASPathTransformFunc (key : String) : PathKey :=
  let hashStr := hexEncodeToString (sha1Sum (stringBytes key))
  let blocksize := 5
  let sliceLen := hashStr.length / blocksize
  let paths := (List.range sliceLen).map fun i =>
    goSlice hashStr (i * blocksize) (i * blocksize + blocksize)
  { PathName := stringsJoin paths "/", Filename := hashStr }

/-- Source `PathKey.FirstPathName` (store.go:47). -/
def PathKey.FirstPathName (p : PathKey) : String :=
  let paths := stringsSplit p.PathName '/'
  if paths.length = 0 then "" else paths.headD ""

/-- Source `PathKey.FullPath` (store.go:56). -/
def PathKey.FullPath (p : PathKey) : String := p.PathName ++ "/" ++ p.Filename

/-- Source `DefaultPathTransformFunc` (store.go:67). -/
def DefaultPathTransformFunc (key : String) : PathKey := { PathName := key, Filename := key }

/-- Source `defaultRootFolderName` (store.go:14). -/
def defaultRootFolderName : String := "p2pnetwork"

/-- Source `StoreOpts` (store.go:61); `none` is Go's nil function value. -/
structure StoreOpts where
  Root : String
  PathTransformFunc : Option (String → PathKey)

/-- Source `Store` (store.go:75): the options after `NewStore` filled the defaults in. -/
structure Store where
  Root : String
  PathTransformFunc : String → PathKey

/-- Source `NewStore` (store.go:80). -/
def NewStore (opts : StoreOpts) : Store :=
  { PathTransformFunc := match opts.PathTransformFunc with
      | none => DefaultPathTransformFunc
      | some f => f
    Root := if opts.Root.length = 0 then defaultRootFolderName else opts.Root }

/-! ## Errors, readers and the pieces of `io` the sources use -/

/-- The error values the modelled code can return. -/
inductive GoError where
  /-- Go `io.EOF`. -/
  | EOF
  /-- Go `io.ErrUnexpectedEOF`. -/
  | ErrUnexpectedEOF
  /-- Go `os.ErrNotExist` (ENOENT). -/
  | ErrNotExist
  /-- A path component that is a regular file (ENOTDIR); not `os.ErrNotExist`. -/
  | ENOTDIR
  /-- A directory where a regular file is needed (EISDIR). -/
  | EISDIR
  /-- A path of `PATH_MAX` bytes or more (ENAMETOOLONG); not `os.ErrNotExist`. -/
  | ENAMETOOLONG
  /-- A path whose last element is `.`, refused by `os.RemoveAll` (EINVAL). -/
  | EINVAL
  /-- The removal of a directory through `..` (ENOTEMPTY). -/
  | ENOTEMPTY
  /-- Go `aes.KeySizeError`. -/
  | KeySizeError (n : Nat)
  /-- Any other failure of a connection, such as a reset. -/
  | connError (msg : String)
  /-- The `fmt.Errorf` of `handleMessageGetFile` for an object that is not on disk. -/
  | notOnDisk (key : String)
  /-- The `fmt.Errorf` of the handlers for a sender that is not in the peer map. -/
  | peerNotInMap (sender : String)
  /-- The bound of a modelled loop was used up; no finite reader gets here. -/
  | loopBound
  deriving DecidableEq, Repr

/-- An `io.Reader`: the byte slices still to come, at most one per `Read`, and the error
reported when none is left. -/
structure Reader where
  chunks : List (List Byte)
  final : GoError := GoError.EOF
  deriving DecidableEq, Repr

/-- One `Read` call with a buffer of `n` bytes: the bytes delivered, the error, the reader
afterwards. -/
def Reader.Read (r : Reader) (n : Nat) : List Byte × Option GoError × Reader :=
  match r.chunks with
  | [] => ([], some r.final, r)
  | c :: cs =>
    if c.length ≤ n then (c, none, { r with chunks := cs })
    else (c.take n, none, { r with chunks := c.drop n :: cs })

/-- A `bytes.Buffer`, `bytes.Reader` or open regular file holding `data`: every `Read`
delivers as much as the buffer takes, and the end is reported by a `Read` of no bytes. -/
def bytesReader (data : List Byte) : Reader :=
  { chunks := if data = [] then [] else [data], final := GoError.EOF }

/-- All the bytes a reader still delivers. -/
def Reader.data (r : Reader) : List Byte := r.chunks.flatten

/-- The number of `Read` calls with a non-empty buffer after which a reader is surely at its end. -/
def Reader.size (r : Reader) : Nat := r.chunks.length + r.data.length

/-- The first `n` bytes of a list of slices, slice boundaries kept. -/
def limitChunks : Nat → List (List Byte) → List (List Byte)
  | _, [] => []
  | n, c :: cs =>
    if n = 0 then []
    else if c.length ≤ n then c :: limitChunks (n - c.length) cs
    else [c.take n]

/-- What is left of a list of slices once `n` bytes were read from it. -/
def dropChunks : Nat → List (List Byte) → List (List Byte)
  | _, [] => []
  | n, c :: cs =>
    if n = 0 then c :: cs
    else if c.length ≤ n then dropChunks (n - c.length) cs
    else c.drop n :: cs

/-- Go `io.LimitReader(r, n)` for an `int64` `n`: at most `n` bytes of `r`, then `io.EOF`. -/
def limitReader (r : Reader) (n : Int) : Reader :=
  { chunks := limitChunks n.toNat r.chunks
    final := if n.toNat ≤ r.data.length then GoError.EOF else r.final }

/-- Go `io.Copy(dst, src)`: the bytes written to `dst` and the error; reaching `io.EOF` is
not an error. -/
def ioCopy (src : Reader) : List Byte × Option GoError :=
  (src.data, if src.final = GoError.EOF then none else some src.final)

/-- The `int64` that eight little-endian bytes encode. -/
def int64OfLE (bs : List Byte) : Int :=
  let u := (List.range 8).foldl (fun acc i => acc + (bs.getD i 0).toNat * 256 ^ i) 0
  if u < 2 ^ 63 then (u : Int) else (u : Int) - 2 ^ 64

/-- The eight little-endian bytes of an `int64`. -/
def int64ToLE (v : Int) : List Byte :=
  (natBytesLE (v % 2 ^ 64).toNat 8).map UInt8.ofNat

/-- Go `binary.Read(r, binary.LittleEndian, &v)` for an `int64`: `io.ReadFull` of eight
bytes, the value when they all came, and the reader afterwards. -/
def binaryReadInt64 (r : Reader) : Except GoError Int × Reader :=
  if 8 ≤ r.data.length then
    (Except.ok (int64OfLE (r.data.take 8)), { r with chunks := dropChunks 8 r.chunks })
  else
    (Except.error (if r.data = [] ∧ r.final = GoError.EOF then GoError.EOF
        else if r.final = GoError.EOF then GoError.ErrUnexpectedEOF else r.final),
      { r with chunks := [] })

/-! ## The file system and the pieces of `os` the store uses -/

/-- A directory or a regular file with its content. -/
inductive Node where
  | dir
  | file (content : List Byte)
  deriving DecidableEq, Repr

/-- A file system: what stands at each path. -/
abbrev FS := String → Option Node

/-- The file system with nothing in it. -/
def FS.empty : FS := fun _ => none

/-- The prefixes of a path that end right before a separator. -/
def sepPrefixes : List Char → List (List Char)
  | [] => []
  | c :: cs => (if c = '/' then [[]] else []) ++ (sepPrefixes cs).map (c :: ·)

/-- The directories a path goes through, outermost first; the empty prefix stands for the
root or working directory, which always exists, and is left out. -/
def pathAncestors (p : String) : List String :=
  ((sepPrefixes p.data).filter (· ≠ [])).map String.mk

/-- Whether a node is a regular file. -/
def Node.isFile : Option Node → Bool
  | some (Node.file _) => true
  | _ => false

/-- Whether a node is a directory. -/
def Node.isDir : Option Node → Bool
  | some Node.dir => true
  | _ => false

/-- Linux `PATH_MAX`: a system call that takes a path refuses one of this many bytes or more
(the terminating zero byte counts) with `ENAMETOOLONG`, before it looks at the file system. -/
def PATH_MAX : Nat := 4096

/-- Whether the system calls refuse a path for its length; `len(path)` counts bytes. -/
@[irreducible]
def pathTooLong (p : String) : Bool := decide (PATH_MAX ≤ (stringBytes p).length)

/-- Go `os.Stat`: `ENAMETOOLONG` for a path of `PATH_MAX` bytes or more, else the node at the
path, `ENOTDIR` below a regular file, `ErrNotExist` otherwise. -/
def osStat (fs : FS) (p : String) : Except GoError Node :=
  if pathTooLong p then Except.error GoError.ENAMETOOLONG
  else match fs p with
  | some n => Except.ok n
  | none =>
    if (pathAncestors p).any (fun a => Node.isFile (fs a)) then Except.error GoError.ENOTDIR
    else Except.error GoError.ErrNotExist

/-- Go `os.MkdirAll`: the path and the directories it goes through become directories;
fails for a path that is too long and when one of them is a regular file. -/
def osMkdirAll (fs : FS) (p : String) : Except GoError FS :=
  if pathTooLong p then Except.error GoError.ENAMETOOLONG
  else if (pathAncestors p ++ [p]).any (fun a => Node.isFile (fs a)) then
    Except.error GoError.ENOTDIR
  else Except.ok fun q => if q = p ∨ q ∈ pathAncestors p then some Node.dir else fs q

/-- Go `os.Create`: an empty regular file at the path, whatever file was there before; the
path must not be too long, the directories it goes through have to exist and the path must
not be a directory. -/
def osCreate (fs : FS) (p : String) : Except GoError FS :=
  if pathTooLong p then Except.error GoError.ENAMETOOLONG
  else if (pathAncestors p).any (fun a => Node.isFile (fs a)) then Except.error GoError.ENOTDIR
  else if (pathAncestors p).any (fun a => !Node.isDir (fs a)) then Except.error GoError.ErrNotExist
  else if Node.isDir (fs p) then Except.error GoError.EISDIR
  else Except.ok fun q => if q = p then some (Node.file []) else fs q

/-- A `Write` on the open file at `p`: the bytes are appended to its content. -/
def fileAppend (fs : FS) (p : String) (bs : List Byte) : FS :=
  fun q => if q = p then
      match fs p with
      | some (Node.file c) => some (Node.file (c ++ bs))
      | other => other
    else fs q

/-- Go `os.Open` followed by `File.Stat`: the size and the content of a regular file.
Reading a directory fails; the failure is reported here. -/
def osOpen (fs : FS) (p : String) : Except GoError (Nat × Reader) :=
  match osStat fs p with
  | Except.error e => Except.error e
  | Except.ok Node.dir => Except.error GoError.EISDIR
  | Except.ok (Node.file c) => Except.ok (c.length, bytesReader c)

/-- The file system without the path `p` and everything under it: the paths that are `p` or
have `p` among the directories they go through, compared as they are written. -/
def FS.without (fs : FS) (p : String) : FS :=
  fun q => if q = p ∨ p ∈ pathAncestors q then none else fs q

/-- Go `endsWithDot` (os/removeall_at.go): whether the last element of a path is `.`. -/
def endsWithDot (path : String) : Bool :=
  path = "." || path.data.reverse.take 2 == ['.', '/']

/-- The first loop of Go `splitPath`: all but one leading separator are dropped. -/
def trimLeadingSeps : List Char → List Char
  | '/' :: '/' :: rest => trimLeadingSeps ('/' :: rest)
  | l => l

/-- The second loop of Go `splitPath`, on the reversed path: trailing separators are dropped
while more than one character is left. -/
def trimTrailingSepsRev : List Char → List Char
  | '/' :: c :: rest => trimTrailingSepsRev (c :: rest)
  | l => l

/-- Go `splitPath` (os/removeall_at.go): the directory and the last element of a path. -/
def splitPath (path : String) : String × String :=
  match trimTrailingSepsRev (trimLeadingSeps path.data).reverse with
  | [] => (".", "")
  | c :: rest =>
    match rest.dropWhile (· ≠ '/') with
    | [] => (".", String.mk (c :: rest).reverse)
    | _ :: d =>
      (if d = [] then "/" else String.mk d.reverse,
        String.mk (c :: rest.takeWhile (· ≠ '/')).reverse)

/-- Go `os.RemoveAll`: the path and everything under it is gone, and a path that does not
exist is no error. The empty path is left alone; a path that ends in `.` is refused; a path
that is too long is removed through its directory, which must not be too long as well; a
path below a regular file is an error; and the removal through `..` of the directory above
an existing directory fails. -/
def osRemoveAll (fs : FS) (path : String) : Except GoError FS :=
  if path = "" then Except.ok fs
  else if endsWithDot path then Except.error GoError.EINVAL
  else if pathTooLong path ∧ pathTooLong (splitPath path).1 then
    Except.error GoError.ENAMETOOLONG
  else if (pathAncestors path).any (fun a => Node.isFile (fs a)) then
    Except.error GoError.ENOTDIR
  else if (splitPath path).2 = ".." ∧ Node.isDir (fs (splitPath path).1) then
    Except.error GoError.ENOTEMPTY
  else Except.ok (fs.without path)

/-! ## The store (store.go) -/

/-- The path of the object for `(id, key)`: `fmt.Sprintf("%s/%s/%s", Root, id, FullPath())`. -/
def Store.fullPathWithRoot (s : Store) (id key : String) : String :=
  s.Root ++ "/" ++ id ++ "/" ++ (s.PathTransformFunc key).FullPath

/-- Source `Store.Has` (store.go:94). -/
def Store.Has (s : Store) (fs : FS) (id key : String) : Bool :=
  match osStat fs (s.fullPathWithRoot id key) with
  | Except.error GoError.ErrNotExist => false
  | _ => true

/-- Source `Store.Delete` (store.go:108). -/
def Store.Delete (s : Store) (fs : FS) (id key : String) : Except GoError FS :=
  let pathKey := s.PathTransformFunc key
  let firstPathNameWithRoot := s.Root ++ "/" ++ id ++ "/" ++ pathKey.FirstPathName
  osRemoveAll fs firstPathNameWithRoot

/-- Source `Store.openFileForWriting` (store.go:135): the file system afterwards; the open
file is named by its path, `Store.fullPathWithRoot`. -/
def Store.openFileForWriting (s : Store) (fs : FS) (id key : String) : Except GoError FS :=
  let pathKey := s.PathTransformFunc key
  let pathNameWithRoot := s.Root ++ "/" ++ id ++ "/" ++ pathKey.PathName
  match osMkdirAll fs pathNameWithRoot with
  | Except.error e => Except.error e
  | Except.ok fs1 => osCreate fs1 (s.fullPathWithRoot id key)

/-- Source `Store.writeStream` (store.go:148): the count and error of `io.Copy`, and the file
system afterwards (unchanged when the file could not be opened). -/
def Store.writeStream (s : Store) (fs : FS) (id key : String) (r : Reader) :
    Except GoError Nat × FS :=
  match s.openFileForWriting fs id key with
  | Except.error e => (Except.error e, fs)
  | Except.ok fs1 =>
    let (written, err) := ioCopy r
    let fs2 := fileAppend fs1 (s.fullPathWithRoot id key) written
    match err with
    | some e => (Except.error e, fs2)
    | none => (Except.ok written.length, fs2)

/-- Source `Store.Write` (store.go:121). -/
def Store.Write (s : Store) (fs : FS) (id key : String) (r : Reader) : Except GoError Nat × FS :=
  s.writeStream fs id key r

/-- Source `Store.readStream` (store.go:163). -/
def Store.readStream (s : Store) (fs : FS) (id key : String) : Except GoError (Nat × Reader) :=
  osOpen fs (s.fullPathWithRoot id key)

/-- Source `Store.Read` (store.go:158). -/
def Store.Read (s : Store) (fs : FS) (id key : String) : Except GoError (Nat × Reader) :=
  s.readStream fs id key

/-! ## Stream encryption (crypto.go) -/

/-- Source `MessageStoreFile` (server.go:79). -/
structure MessageStoreFile where
  ID : String
  Key : String
  Size : Int
  deriving DecidableEq, Repr

/-- Source `MessageGetFile` (server.go:86). -/
structure MessageGetFile where
  ID : String
  Key : String
  deriving DecidableEq, Repr

/-- Source `Message` (server.go:74) with the two payload types that `init` registers. -/
inductive Message where
  | storeFile (m : MessageStoreFile)
  | getFile (m : MessageGetFile)
  deriving DecidableEq, Repr

/-- What the sources take from libraries that are not modelled in full: the AES block
function (key, 16-byte block, result) and the gob encoding of a `Message`. -/
structure Env where
  aesEncryptBlock : List Byte → List Byte → List Byte
  gobEncode : Message → List Byte

/-- Go `aes.NewCipher`: keys of 16, 24 or 32 bytes only. -/
def aesNewCipher (key : List Byte) : Except GoError Unit :=
  if key.length = 16 ∨ key.length = 24 ∨ key.length = 32 then Except.ok ()
  else Except.error (GoError.KeySizeError key.length)

/-- The number a list of bytes encodes, most significant byte first. -/
def natOfBE (bs : List Byte) : Nat := bs.foldl (fun acc b => acc * 256 + b.toNat) 0

/-- A `cipher.Stream` made by `cipher.NewCTR`: the key, the initial counter block and the
number of key-stream bytes used so far. -/
structure CtrStream where
  key : List Byte
  iv : List Byte
  pos : Nat

/-- Byte `j` of the key stream: the counter is the IV read as a 128-bit big-endian number,
plus the block index, and the block is its encryption. -/
def keystreamByte (env : Env) (key iv : List Byte) (j : Nat) : Byte :=
  (env.aesEncryptBlock key
    ((natBytesBE ((natOfBE iv + j / 16) % 2 ^ 128) 16).map UInt8.ofNat)).getD (j % 16) 0

/-- Go `Stream.XORKeyStream(dst, src)`: the transformed bytes and the stream afterwards. -/
def CtrStream.XORKeyStream (env : Env) (st : CtrStream) (src : List Byte) :
    List Byte × CtrStream :=
  (List.zipWith (fun b k => b ^^^ k) src
      ((List.range src.length).map fun i => keystreamByte env st.key st.iv (st.pos + i)),
    { st with pos := st.pos + src.length })

/-- What a copy leaves behind: the returned count or error, the slices written to `dst`
(one per `Write`), and the source afterwards. -/
structure CopyResult where
  result : Except GoError Nat
  written : List (List Byte)
  src : Reader

/-- The loop of `copyStream` (crypto.go:38), bounded by the number of iterations. -/
def copyStreamLoop (env : Env) :
    Nat → CtrStream → Reader → Nat → List (List Byte) → CopyResult
  | 0, _, src, _, w => { result := Except.error GoError.loopBound, written := w, src := src }
  | fuel + 1, stream, src, nw, w =>
    match src.Read (32 * 1024) with
    | (buf, err, src1) =>
      let step : CtrStream × Nat × List (List Byte) :=
        if buf.length > 0 then
          ((stream.XORKeyStream env buf).2, nw + buf.length, w ++ [(stream.XORKeyStream env buf).1])
        else (stream, nw, w)
      match err with
      | some GoError.EOF => { result := Except.ok step.2.1, written := step.2.2, src := src1 }
      | some e => { result := Except.error e, written := step.2.2, src := src1 }
      | none => copyStreamLoop env fuel step.1 src1 step.2.1 step.2.2

/-- Source `copyStream` (crypto.go:33); writes to `dst` do not fail. -/
def copyStream (env : Env) (stream : CtrStream) (blockSize : Nat) (src : Reader) : CopyResult :=
  copyStreamLoop env (src.size + 1) stream src blockSize []

/-- Source `copyDecrypt` (crypto.go:59). -/
def copyDecrypt (env : Env) (key : List Byte) (src : Reader) : CopyResult :=
  match aesNewCipher key with
  | Except.error e => { result := Except.error e, written := [], src := src }
  | Except.ok _ =>
    match src.Read 16 with
    | (_, some e, src1) => { result := Except.error e, written := [], src := src1 }
    | (got, none, src1) =>
      let iv := got ++ List.replicate (16 - got.length) 0
      copyStream env { key := key, iv := iv, pos := 0 } 16 src1

/-- Go `io.ReadFull(r, buf)` with a buffer of `n` bytes. -/
def ioReadFull (r : Reader) (n : Nat) : Except GoError (List Byte) × Reader :=
  if n ≤ r.data.length then
    (Except.ok (r.data.take n), { r with chunks := dropChunks n r.chunks })
  else
    (Except.error (if r.final = GoError.EOF then
        (if r.data = [] then GoError.EOF else GoError.ErrUnexpectedEOF) else r.final),
      { r with chunks := [] })

/-- Source `copyEncrypt` (crypto.go:76); `rnd` is `rand.Reader`. -/
def copyEncrypt (env : Env) (key : List Byte) (rnd : Reader) (src : Reader) : CopyResult :=
  match aesNewCipher key with
  | Except.error e => { result := Except.error e, written := [], src := src }
  | Except.ok _ =>
    match ioReadFull rnd 16 with
    | (Except.error e, _) => { result := Except.error e, written := [], src := src }
    | (Except.ok iv, _) =>
      let c := copyStream env { key := key, iv := iv, pos := 0 } 16 src
      { c with written := iv :: c.written }

/-- Source `Store.WriteDecrypt` (store.go:126): the count and error of `copyDecrypt`, the
file system and the reader afterwards. -/
def Store.WriteDecrypt (env : Env) (s : Store) (fs : FS) (encKey : List Byte) (id key : String)
    (r : Reader) : Except GoError Nat × FS × Reader :=
  match s.openFileForWriting fs id key with
  | Except.error e => (Except.error e, fs, r)
  | Except.ok fs1 =>
    let c := copyDecrypt env encKey r
    (c.result, fileAppend fs1 (s.fullPathWithRoot id key) c.written.flatten, c.src)

/-! ## The frame codec (p2p/message.go, p2p/encoding.go) -/

/-- Source `IncomingMessage` (message.go:4). -/
def IncomingMessage : Byte := 0x1

/-- Source `IncomingStream` (message.go:5). -/
def IncomingStream : Byte := 0x2

/-- Source `RPC` (message.go:9). -/
structure RPC where
  From : String := ""
  Payload : List Byte := []
  Stream : Bool := false
  deriving DecidableEq, Repr

/-- Source `DefaultDecoder.Decode` (encoding.go:23): the returned error, the message and the
reader afterwards. -/
def DefaultDecoder.Decode (r : Reader) (msg : RPC) : Option GoError × RPC × Reader :=
  match r.Read 1 with
  | (_, some _, r1) => (none, msg, r1)
  | (got, none, r1) =>
    let peekBuf := got ++ List.replicate (1 - got.length) 0
    let stream := peekBuf.headD 0 == IncomingStream
    if stream then (none, { msg with Stream := true }, r1)
    else
      match r1.Read 1028 with
      | (_, some err, r2) => (some err, msg, r2)
      | (buf, none, r2) => (none, { msg with Payload := buf }, r2)

/-! ## The read loop of a connection (p2p/tcp_transport.go) -/

/-- What a run of `handleConn` has done after a number of turns of its read loop. -/
structure ConnRun where
  /-- The RPCs sent on the consumer channel, in order. -/
  published : List RPC
  /-- The connection afterwards. -/
  conn : Reader
  /-- The error with which `handleConn` returned and its deferred function closed the
  connection; `none` while the read loop is still running. -/
  dropped : Option GoError
  deriving DecidableEq, Repr

/-- The read loop of `handleConn` (tcp_transport.go:144), bounded by the number of turns.
`onStream` is what the application handler reads from the connection while the loop waits
on the wait group of the peer. -/
def handleConnLoop (addr : String) (onStream : Reader → Reader) :
    Nat → Reader → List RPC → ConnRun
  | 0, conn, pub => { published := pub, conn := conn, dropped := none }
  | fuel + 1, conn, pub =>
    match DefaultDecoder.Decode conn {} with
    | (some err, _, conn1) => { published := pub, conn := conn1, dropped := some err }
    | (none, rpc, conn1) =>
      if rpc.Stream then handleConnLoop addr onStream fuel (onStream conn1) pub
      else handleConnLoop addr onStream fuel conn1 (pub ++ [{ rpc with From := addr }])

/-- Source `TCPTransport.handleConn` (tcp_transport.go:121) with `DefaultDecoder`, for
`fuel` turns of the read loop. `handshake` is what `HandshakeFunc` returns, `onPeer` what
the `OnPeer` callback returns when there is one, `addr` the remote address. -/
def TCPTransport.handleConn (handshake : Option GoError) (onPeer : Option (Option GoError))
    (addr : String) (onStream : Reader → Reader) (fuel : Nat) (conn : Reader) : ConnRun :=
  match handshake with
  | some err => { published := [], conn := conn, dropped := some err }
  | none =>
    match onPeer with
    | some (some err) => { published := [], conn := conn, dropped := some err }
    | _ => handleConnLoop addr onStream fuel conn []

/-! ## The file server (server.go) -/

/-- A connected peer as one side sees it: what arrived from the remote and was not read
yet, and the slices written to the remote so far, one per `Write`. -/
structure Peer where
  inbox : Reader
  outbox : List (List Byte)

/-- A peer on a fresh connection that stays open: nothing arrived, nothing was sent. -/
def Peer.idle : Peer := { inbox := { chunks := [] }, outbox := [] }

/-- Source `TCPPeer.Send` (tcp_transport.go:33), also the `Write` of the connection. -/
def Peer.Send (p : Peer) (b : List Byte) : Peer := { p with outbox := p.outbox ++ [b] }

/-- The writes of an `io.Copy` into the connection: none when there is nothing to copy. -/
def Peer.copyIn (p : Peer) (data : List Byte) : Peer :=
  if data = [] then p else p.Send data

/-- A reader after `n` of its bytes were read. -/
def Reader.advance (r : Reader) (n : Nat) : Reader := { r with chunks := dropChunks n r.chunks }

/-- Source `FileServerOpts` (server.go:17), without the transport and the bootstrap list. -/
structure FileServerOpts where
  ID : String
  EncKey : List Byte
  StorageRoot : String
  PathTransformFunc : Option (String → PathKey)

/-- Source `FileServer` (server.go:27) together with the disk it works on. The peer map is a
list of pairs; its order stands for the order in which Go happens to range over the map. -/
structure FileServer where
  ID : String
  EncKey : List Byte
  store : Store
  fs : FS
  peers : List (String × Peer)

/-- Source `NewFileServer` (server.go:38); `freshID` is what `generateID` returns. -/
def NewFileServer (opts : FileServerOpts) (freshID : String) : FileServer :=
  let storeOpts : StoreOpts :=
    { Root := opts.StorageRoot, PathTransformFunc := opts.PathTransformFunc }
  { ID := if opts.ID.length = 0 then freshID else opts.ID
    EncKey := opts.EncKey
    store := NewStore storeOpts
    fs := FS.empty
    peers := [] }

/-- Every peer of the map after `f`. -/
def FileServer.mapPeers (s : FileServer) (f : Peer → Peer) : FileServer :=
  { s with peers := s.peers.map fun ap => (ap.1, f ap.2) }

/-- The peer map with the entry for `addr` replaced. -/
def FileServer.setPeer (s : FileServer) (addr : String) (p : Peer) : FileServer :=
  { s with peers := s.peers.map fun ap => if ap.1 = addr then (ap.1, p) else ap }

/-- Source `FileServer.broadcast` (server.go:57). -/
def FileServer.broadcast (env : Env) (s : FileServer) (msg : Message) : FileServer :=
  s.mapPeers fun peer => (peer.Send [IncomingMessage]).Send (env.gobEncode msg)

/-- The message `FileServer.Store` builds (server.go:150). -/
def FileServer.storeMessage (s : FileServer) (key : String) (size : Nat) : Message :=
  Message.storeFile { ID := s.ID, Key := hashKey key, Size := (size : Int) + 16 }

/-- The message `FileServer.Get` builds (server.go:103). -/
def FileServer.getMessage (s : FileServer) (key : String) : Message :=
  Message.getFile { ID := s.ID, Key := hashKey key }

/-- Source `FileServer.Store` (server.go:137): the returned error and the server afterwards.
`rnd` is `rand.Reader`. -/
def FileServer.Store (env : Env) (s : FileServer) (key : String) (r : Reader) (rnd : Reader) :
    Option GoError × FileServer :=
  let fileBuffer := bytesReader (ioCopy r).1
  match s.store.Write s.fs s.ID key r with
  | (Except.error err, fs1) => (some err, { s with fs := fs1 })
  | (Except.ok size, fs1) =>
    let s1 := FileServer.broadcast env { s with fs := fs1 } (s.storeMessage key size)
    let c := copyEncrypt env s.EncKey rnd fileBuffer
    let s2 := s1.mapPeers fun peer =>
      { peer with outbox := peer.outbox ++ [[IncomingStream]] ++ c.written }
    match c.result with
    | Except.error err => (some err, s2)
    | Except.ok _ => (none, s2)

/-- One turn of the receive loop of `FileServer.Get` (server.go:116) for the peer at `addr`. -/
def FileServer.receiveFrom (env : Env) (s : FileServer) (key : String) (addr : String)
    (peer : Peer) : Option GoError × FileServer :=
  match binaryReadInt64 peer.inbox with
  | (sizeRead, inbox1) =>
    let fileSize : Int := match sizeRead with
      | Except.ok v => v
      | Except.error _ => 0
    let limited := limitReader inbox1 fileSize
    match s.store.WriteDecrypt env s.fs s.EncKey s.ID key limited with
    | (res, fs1, limited1) =>
      let inbox2 := inbox1.advance (limited.data.length - limited1.data.length)
      let s1 := { s with fs := fs1 }.setPeer addr { peer with inbox := inbox2 }
      match res with
      | Except.error err => (some err, s1)
      | Except.ok _ => (none, s1)

/-- The receive loop of `FileServer.Get` (server.go:116) over the peers at `addrs`. -/
def FileServer.receiveAll (env : Env) (key : String) :
    List String → FileServer → Option GoError × FileServer
  | [], s => (none, s)
  | addr :: rest, s =>
    match s.peers.lookup addr with
    | none => FileServer.receiveAll env key rest s
    | some peer =>
      match s.receiveFrom env key addr peer with
      | (some err, s1) => (some err, s1)
      | (none, s1) => FileServer.receiveAll env key rest s1

/-- Source `FileServer.Get` (server.go:92). `during` is what the rest of the network does to
this server while it sleeps for 500 ms: the answers of the peers arriving. -/
def FileServer.Get (env : Env) (s : FileServer) (key : String)
    (during : FileServer → FileServer) : Except GoError Reader × FileServer :=
  if s.store.Has s.fs s.ID key then
    match s.store.Read s.fs s.ID key with
    | Except.error err => (Except.error err, s)
    | Except.ok (_, r) => (Except.ok r, s)
  else
    let s1 := during (FileServer.broadcast env s (s.getMessage key))
    match FileServer.receiveAll env key (s1.peers.map Prod.fst) s1 with
    | (some err, s2) => (Except.error err, s2)
    | (none, s2) =>
      match s2.store.Read s2.fs s2.ID key with
      | Except.error err => (Except.error err, s2)
      | Except.ok (_, r) => (Except.ok r, s2)

/-- Source `FileServer.handleMessageGetFile` (server.go:235). -/
def FileServer.handleMessageGetFile (s : FileServer) (sender : String) (msg : MessageGetFile) :
    Option GoError × FileServer :=
  if !s.store.Has s.fs msg.ID msg.Key then (some (GoError.notOnDisk msg.Key), s)
  else
    match s.store.Read s.fs msg.ID msg.Key with
    | Except.error err => (some err, s)
    | Except.ok (fileSize, r) =>
      match s.peers.lookup sender with
      | none => (some (GoError.peerNotInMap sender), s)
      | some peer =>
        let peer1 := peer.Send [IncomingStream]
        let peer2 := peer1.Send (int64ToLE fileSize)
        let peer3 := peer2.copyIn (ioCopy r).1
        match (ioCopy r).2 with
        | some err => (some err, s.setPeer sender peer3)
        | none => (none, s.setPeer sender peer3)

/-- Source `FileServer.handleMessageStoreFile` (server.go:270). -/
def FileServer.handleMessageStoreFile (s : FileServer) (sender : String)
    (msg : MessageStoreFile) : Option GoError × FileServer :=
  match s.peers.lookup sender with
  | none => (some (GoError.peerNotInMap sender), s)
  | some peer =>
    let limited := limitReader peer.inbox msg.Size
    let consumed := match s.store.openFileForWriting s.fs msg.ID msg.Key with
      | Except.error _ => 0
      | Except.ok _ => limited.data.length
    let peer1 := { peer with inbox := peer.inbox.advance consumed }
    match s.store.Write s.fs msg.ID msg.Key limited with
    | (Except.error err, fs1) => (some err, { s with fs := fs1 }.setPeer sender peer1)
    | (Except.ok _, fs1) => (none, { s with fs := fs1 }.setPeer sender peer1)

/-- Source `FileServer.handleMessage` (server.go:223). -/
def FileServer.handleMessage (s : FileServer) (sender : String) (msg : Message) :
    Option GoError × FileServer :=
  match msg with
  | Message.storeFile v => s.handleMessageStoreFile sender v
  | Message.getFile v => s.handleMessageGetFile sender v

/-- What the connection delivers of what the other side wrote: the slices as written,
writes of no bytes leaving no trace. -/
def deliver (inbox : Reader) (out : List (List Byte)) : Reader :=
  { inbox with chunks := inbox.chunks ++ out.filter (· ≠ []) }

/-- What `s` wrote to the peer at `addr` so far. -/
def FileServer.outboxTo (s : FileServer) (addr : String) : List (List Byte) :=
  match s.peers.lookup addr with
  | none => []
  | some peer => peer.outbox

/-- The server once `r` is what arrived from the peer at `addr` and was not read yet. -/
def FileServer.withInbox (s : FileServer) (addr : String) (r : Reader) : FileServer :=
  { s with peers := s.peers.map fun ap => if ap.1 = addr then (ap.1, { ap.2 with inbox := r }) else ap }

/-- The connection after the read loop of `handleConn` (tcp_transport.go:143) decoded `n`
frames from it. -/
def afterFrames : Nat → Reader → Reader
  | 0, r => r
  | n + 1, r => afterFrames n (DefaultDecoder.Decode r {}).2.2

/-- The slices `FileServer.Store` writes to every peer after the stream marker. -/
def FileServer.storeStream (env : Env) (s : FileServer) (r rnd : Reader) : List (List Byte) :=
  (copyEncrypt env s.EncKey rnd (bytesReader (ioCopy r).1)).written

/-- The body of the loop of `main` (main.go:71) on the server `S` with one connected peer `P`,
in the order the sleeps of the sources aim at. `S` stores the content and `P`, whose read
loop decoded the two frames, handles the announcement; `S` deletes its local object and
calls `Get`; while it sleeps `P` handles the request and answers, and the read loop of `S`
decodes the stream marker of the answer. The result is what `Get` returns, with `S`
afterwards. -/
def storeDeleteGet (env : Env) (S P : FileServer) (aS aP key : String) (r rnd : Reader) :
    Except GoError Reader × FileServer :=
  let S1 := (S.Store env key r rnd).2
  let P0 := P.withInbox aS (afterFrames 2 (deliver { chunks := [] } (S1.outboxTo aP)))
  let P1 := (P0.handleMessage aS (S.storeMessage key (ioCopy r).1.length)).2
  match S1.store.Delete S1.fs S1.ID key with
  | Except.error err => (Except.error err, S1)
  | Except.ok fs2 =>
    FileServer.Get env { S1 with fs := fs2 } key fun s =>
      s.withInbox aP (afterFrames 1 (deliver { chunks := [] }
        ((P1.handleMessage aS (s.getMessage key)).2.outboxTo aS)))

/-! ## Auxiliary definitions for the statements -/

deriving instance DecidableEq for Except

/-- The file system after an object was opened for writing at `h` below the directory `x` and
`c` was written into it. -/
def fsAfterWrite (fs : FS) (x h : String) (c : List Byte) : FS :=
  fun q => if q = h then some (Node.file c)
    else if q = x ∨ q ∈ pathAncestors x then some Node.dir else fs q

/-- The eight five-character slices of a 40-character hex digest. -/
def casSegments (key : String) : List String :=
  (List.range 8).map fun i =>
    goSlice (hexEncodeToString (sha1Sum (stringBytes key))) (i * 5) (i * 5 + 5)

/-- The counter-mode transform of `data` with the key stream taken from offset `pos`. -/
def ctrXor (env : Env) (key iv : List Byte) : Nat → List Byte → List Byte
  | _, [] => []
  | pos, b :: bs => (b ^^^ keystreamByte env key iv pos) :: ctrXor env key iv (pos + 1) bs

/-- A stand-in for the library functions, to evaluate the definitions on concrete inputs:
the block function adds the key to the block bytewise, the encoder writes the fields of a
message one after the other. -/
def Env.sample : Env :=
  { aesEncryptBlock := fun key blk => List.zipWith (fun k b => k + b) key blk
    gobEncode := fun m => match m with
      | Message.storeFile v => 1 :: (stringBytes v.ID ++ stringBytes v.Key ++ int64ToLE v.Size)
      | Message.getFile v => 2 :: (stringBytes v.ID ++ stringBytes v.Key) }

/-- A 32-byte key for the examples. -/
def sampleKey : List Byte := List.replicate 32 7

/-- A random source for the examples that delivers sixteen bytes. -/
def sampleRand : Reader := bytesReader ((List.range 16).map UInt8.ofNat)

/-- A store with the content-addressed transform, as `makeServer` configures it (main.go:34). -/
def sampleStore : Store :=
  NewStore { Root := "3000_network", PathTransformFunc := some CASPathTransformFunc }

/-- The sender of the examples: `s3` of `main` with one connected peer. -/
def sampleSender : FileServer :=
  { ID := "s3", EncKey := sampleKey
    store := NewStore { Root := "5000_network", PathTransformFunc := some CASPathTransformFunc }
    fs := FS.empty
    peers := [(":3000", Peer.idle)] }

/-- The content `main` stores (main.go:73), 22 bytes. -/
def sampleData : List Byte := stringBytes "my big data file here!"

/-- The peer of the examples with the stream of the sender's `Store` arrived. -/
def sampleReceiver : FileServer :=
  { ID := "s1", EncKey := List.replicate 32 9
    store := sampleStore
    fs := FS.empty
    peers := [(":5000",
      { inbox := deliver { chunks := [] }
          (sampleSender.storeStream Env.sample (bytesReader sampleData) sampleRand ++ [])
        outbox := [] })] }

/-- The peer of the examples on a fresh connection to the sender. -/
def sampleHolder : FileServer :=
  { ID := "s1", EncKey := List.replicate 32 9
    store := sampleStore
    fs := FS.empty
    peers := [(":5000", Peer.idle)] }

/-- The content `main` stores, encrypted by `copyEncrypt` with the example key and IV. -/
def sampleCipher : List Byte :=
  (copyEncrypt Env.sample sampleKey sampleRand (bytesReader sampleData)).written.flatten

/-- A disk for the examples, with the objects where `Store.Write` puts them: those of owner
`s3` for `picture_0.png`, for `picture_1215339.png` (same first segment `d44bb`) and for
`picture_1.png`, and the object of owner `s1` for `picture_0.png`. -/
def sampleDisk : FS :=
  fsAfterWrite (fsAfterWrite (fsAfterWrite (fsAfterWrite FS.empty
    "3000_network/s3/d44bb/d0bbd/a685d/5db90/f4195/68b53/1ab9a/fa97b"
    "3000_network/s3/d44bb/d0bbd/a685d/5db90/f4195/68b53/1ab9a/fa97b/d44bbd0bbda685d5db90f419568b531ab9afa97b"
    sampleData)
    "3000_network/s3/d44bb/5929a/4bb9b/087a7/56e5b/6a23b/9cc58/1da21"
    "3000_network/s3/d44bb/5929a/4bb9b/087a7/56e5b/6a23b/9cc58/1da21/d44bb5929a4bb9b087a756e5b6a23b9cc581da21"
    sampleData)
    "3000_network/s3/69ad3/ac500/e651c/47611/7fe45/b7f33/35ae2/64b4a"
    "3000_network/s3/69ad3/ac500/e651c/47611/7fe45/b7f33/35ae2/64b4a/69ad3ac500e651c476117fe45b7f3335ae264b4a"
    sampleData)
    "3000_network/s1/d44bb/d0bbd/a685d/5db90/f4195/68b53/1ab9a/fa97b"
    "3000_network/s1/d44bb/d0bbd/a685d/5db90/f4195/68b53/1ab9a/fa97b/d44bbd0bbda685d5db90f419568b531ab9afa97b"
    sampleData

/-- A root folder of 4015 bytes in sixteen directory names of 250 bytes each, for the
examples on the length limit. -/
def sampleLongRoot : String :=
  stringsJoin (List.replicate 16 (String.mk (List.replicate 250 'r'))) "/"

/-- A store with the content-addressed transform under the long root folder: the directory
`Delete` removes for owner `s3` has a path of 4024 bytes, the object a path of 4107 bytes. -/
def sampleLongStore : Store :=
  NewStore { Root := sampleLongRoot, PathTransformFunc := some CASPathTransformFunc }

/-- A store as `NewStore` makes it without a path transform. -/
def sampleDefaultStore : Store := NewStore { Root := "3000_network", PathTransformFunc := none }

/-- A key of 2047 bytes in 1024 segments `k`: with the default transform the directory
`Delete` removes is `3000_network/s3/k`, the object has a path of 4111 bytes. -/
def sampleLongKey : String := stringsJoin (List.replicate 1024 "k") "/"

/-- Whether a string names one entry of a directory: not empty, not `.` or `..`, and without
a separator. The ids the program generates (`generateID`, hex digits) are such names. -/
def isDirName (n : String) : Bool :=
  !(n == "") && !(n == ".") && !(n == "..") && !n.data.contains '/'

/-! # Theorems -/

/-! ## Path transform: shape of the content-addressed path -/

theorem sha1Sum_length (bs : List Byte) : (sha1Sum bs).length = 20 := by
  simp [sha1Sum, natBytesBE, natBytesLE]

theorem md5Sum_length (bs : List Byte) : (md5Sum bs).length = 16 := by
  simp [md5Sum, natBytesLE]

theorem hexDigit_ne_sep (n : Nat) : hexDigit n ≠ '/' := by
  unfold hexDigit
  by_cases h : n < 16
  · interval_cases n <;> decide
  · rw [List.getD_eq_default _ _ (by simpa using h)]
    decide

theorem hexEncodeToString_length (bs : List Byte) :
    (hexEncodeToString bs).length = 2 * bs.length := by
  induction bs with
  | nil => rfl
  | cons b bs ih =>
    simp only [hexEncodeToString, String.length, List.flatMap_cons, List.length_append,
      List.length_cons, List.length_nil] at ih ⊢
    omega

theorem hexEncodeToString_no_sep (bs : List Byte) : '/' ∉ (hexEncodeToString bs).data := by
  induction bs with
  | nil => simp [hexEncodeToString]
  | cons b bs ih =>
    simp only [hexEncodeToString, List.flatMap_cons, List.mem_append, List.mem_cons,
      List.mem_singleton, List.not_mem_nil, or_false] at ih ⊢
    rintro ((h | h) | h)
    · exact hexDigit_ne_sep _ h.symm
    · exact hexDigit_ne_sep _ h.symm
    · exact ih h

theorem splitChars_no_sep (sep : Char) (a : List Char) (h : sep ∉ a) : splitChars sep a = [a] := by
  induction a with
  | nil => rfl
  | cons c cs ih =>
    simp only [List.mem_cons, not_or] at h
    simp [splitChars, ih h.2, Ne.symm h.1]

theorem splitChars_append_sep (sep : Char) (a rest : List Char) (h : sep ∉ a) :
    splitChars sep (a ++ sep :: rest) = a :: splitChars sep rest := by
  induction a with
  | nil => simp [splitChars]
  | cons c cs ih =>
    simp only [List.mem_cons, not_or] at h
    simp [splitChars, ih h.2, Ne.symm h.1]

theorem stringsSplit_stringsJoin (segs : List String) (hne : segs ≠ [])
    (h : ∀ s ∈ segs, '/' ∉ s.data) : stringsSplit (stringsJoin segs "/") '/' = segs := by
  induction segs with
  | nil => exact absurd rfl hne
  | cons a rest ih =>
    cases rest with
    | nil =>
      simp [stringsSplit, stringsJoin, splitChars_no_sep _ _ (h a (by simp))]
    | cons b rest =>
      have ih' := ih (by simp) (fun s hs => h s (List.mem_cons_of_mem _ hs))
      simp only [stringsSplit] at ih' ⊢
      have : (stringsJoin (a :: b :: rest) "/").data = a.data ++ '/' :: (stringsJoin (b :: rest) "/").data := by
        simp [stringsJoin, String.data_append]
      rw [this, splitChars_append_sep _ _ _ (h a (by simp))]
      simp [ih']


theorem sha1Hex_length (key : String) :
    (hexEncodeToString (sha1Sum (stringBytes key))).length = 40 := by
  rw [hexEncodeToString_length, sha1Sum_length]

theorem cas_pathName (key : String) :
    (CASPathTransformFunc key).PathName = stringsJoin (casSegments key) "/" := by
  simp only [CASPathTransformFunc, casSegments, sha1Hex_length]

theorem goSlice_no_sep (s : String) (lo hi : Nat) (h : '/' ∉ s.data) :
    '/' ∉ (goSlice s lo hi).data := by
  intro hm
  exact h (List.mem_of_mem_drop (List.mem_of_mem_take hm))

theorem casSegments_join (key : String) :
    String.join (casSegments key) = hexEncodeToString (sha1Sum (stringBytes key)) := by
  have hl := sha1Hex_length key
  unfold casSegments
  generalize hexEncodeToString (sha1Sum (stringBytes key)) = h at hl ⊢
  apply String.ext
  simp only [String.length] at hl
  have e : List.range 8 = [0, 1, 2, 3, 4, 5, 6, 7] := by decide
  rw [e]
  simp only [String.join, List.map, List.foldl, goSlice, String.data_append]
  have d0 : h.data = h.data.take 5 ++ h.data.drop 5 := (List.take_append_drop _ _).symm
  have step : ∀ n, h.data.drop n = (h.data.drop n).take 5 ++ h.data.drop (n + 5) := by
    intro n
    rw [← List.drop_drop, List.take_append_drop]
  have dend : h.data.drop 40 = [] := List.drop_eq_nil_of_le (by omega)
  conv_rhs => rw [d0, step 5, step 10, step 15, step 20, step 25, step 30, step 35, dend]
  simp


theorem casSegments_length (key : String) : (casSegments key).length = 8 := by
  simp [casSegments]

theorem casSegments_seg_length (key : String) : ∀ s ∈ casSegments key, s.length = 5 := by
  intro s hs
  have hl := sha1Hex_length key
  simp only [casSegments, List.mem_map, List.mem_range] at hs
  obtain ⟨i, hi, rfl⟩ := hs
  simp only [String.length] at hl
  simp only [goSlice, String.length, List.length_take, List.length_drop, hl]
  omega

theorem casSegments_no_sep (key : String) : ∀ s ∈ casSegments key, '/' ∉ s.data := by
  intro s hs
  simp only [casSegments, List.mem_map, List.mem_range] at hs
  obtain ⟨i, _, rfl⟩ := hs
  exact goSlice_no_sep _ _ _ (hexEncodeToString_no_sep _)

theorem casSegments_ne_nil (key : String) : casSegments key ≠ [] := by
  intro h
  have := casSegments_length key
  rw [h] at this
  simp at this

/-- C4: for every key (the empty key and keys with separators included) the path name of
`CASPathTransformFunc key` splits at `/` into exactly 8 segments of exactly 5 characters; it
is those segments joined by `/`, and the file name is their concatenation, the 40-character
hex SHA-1 of the key. -/
theorem cas_path_shape (key : String) :
    (stringsSplit (CASPathTransformFunc key).PathName '/').length = 8 ∧
    (∀ seg ∈ stringsSplit (CASPathTransformFunc key).PathName '/', seg.length = 5) ∧
    (CASPathTransformFunc key).PathName =
      stringsJoin (stringsSplit (CASPathTransformFunc key).PathName '/') "/" ∧
    (CASPathTransformFunc key).Filename =
      String.join (stringsSplit (CASPathTransformFunc key).PathName '/') ∧
    (CASPathTransformFunc key).Filename = hexEncodeToString (sha1Sum (stringBytes key)) ∧
    (CASPathTransformFunc key).Filename.length = 40 := by
  have hsplit : stringsSplit (CASPathTransformFunc key).PathName '/' = casSegments key := by
    rw [cas_pathName]
    exact stringsSplit_stringsJoin _ (casSegments_ne_nil key) (casSegments_no_sep key)
  rw [hsplit]
  refine ⟨casSegments_length key, casSegments_seg_length key, cas_pathName key, ?_, rfl, ?_⟩
  · rw [casSegments_join]; rfl
  · exact sha1Hex_length key

/-! ## Default transform -/

/-- C10, counterexample: with no path transform configured, the transform of the store
made by `NewStore`, and of the store made by `NewFileServer`, maps the key `pic` to a path
other than `CASPathTransformFunc "pic"`. -/
theorem nil_transform_not_cas :
    (NewStore { Root := "", PathTransformFunc := none }).PathTransformFunc "pic" ≠
      CASPathTransformFunc "pic" ∧
    (NewFileServer { ID := "", EncKey := [], StorageRoot := "", PathTransformFunc := none }
      "id").store.PathTransformFunc "pic" ≠ CASPathTransformFunc "pic" := by
  decide!

/-- C10, amended: with no path transform configured, the store made by `NewStore` and by
`NewFileServer` uses `DefaultPathTransformFunc`: path name and file name are the key itself.
The content-addressed scheme is used when it is configured, as `makeServer` does. -/
theorem newStore_default_transform (root : String) (key : String) :
    (NewStore { Root := root, PathTransformFunc := none }).PathTransformFunc key =
      { PathName := key, Filename := key } ∧
    (∀ (id : String) (encKey : List Byte) (freshID : String),
      (NewFileServer { ID := id, EncKey := encKey, StorageRoot := root, PathTransformFunc := none }
        freshID).store.PathTransformFunc key = { PathName := key, Filename := key }) ∧
    (NewStore { Root := root, PathTransformFunc := some CASPathTransformFunc }).PathTransformFunc key =
      CASPathTransformFunc key := by
  refine ⟨rfl, fun _ _ _ => rfl, rfl⟩

/-! ## File system: delete, write, read -/

theorem mem_sepPrefixes (x l : List Char) :
    x ∈ sepPrefixes l ↔ ∃ rest, l = x ++ '/' :: rest := by
  induction l generalizing x with
  | nil => simp [sepPrefixes]
  | cons c cs ih =>
    simp only [sepPrefixes, List.mem_append, List.mem_map]
    constructor
    · rintro (h | ⟨y, hy, rfl⟩)
      · split at h
        · rename_i hc
          simp only [List.mem_singleton] at h
          subst h; subst hc
          exact ⟨cs, rfl⟩
        · simp at h
      · obtain ⟨rest, hr⟩ := (ih y).1 hy
        exact ⟨rest, by simp [hr]⟩
    · rintro ⟨rest, hr⟩
      cases x with
      | nil =>
        simp only [List.nil_append, List.cons.injEq] at hr
        left; simp [hr.1]
      | cons d ds =>
        simp only [List.cons_append, List.cons.injEq] at hr
        right
        exact ⟨ds, (ih ds).2 ⟨rest, hr.2⟩, by rw [hr.1]⟩

theorem mem_pathAncestors (a p : String) :
    a ∈ pathAncestors p ↔ a.data ≠ [] ∧ ∃ rest, p.data = a.data ++ '/' :: rest := by
  simp only [pathAncestors, List.mem_map, List.mem_filter, mem_sepPrefixes, decide_eq_true_eq]
  constructor
  · rintro ⟨x, ⟨hx, hne⟩, rfl⟩
    exact ⟨hne, hx⟩
  · rintro ⟨hne, hx⟩
    exact ⟨a.data, ⟨hx, hne⟩, rfl⟩

/-- Two directories on the way to the same path are comparable. -/
theorem pathAncestors_comparable (a d p : String) (ha : a ∈ pathAncestors p)
    (hd : d ∈ pathAncestors p) : a ∈ pathAncestors d ∨ a = d ∨ d ∈ pathAncestors a := by
  rw [mem_pathAncestors] at ha hd
  obtain ⟨hane, ra, hra⟩ := ha
  obtain ⟨hdne, rd, hrd⟩ := hd
  rw [hra] at hrd
  rcases List.append_eq_append_iff.1 hrd with ⟨t, h1, h2⟩ | ⟨t, h1, h2⟩
  · cases t with
    | nil => right; left; apply String.ext; simpa using h1.symm
    | cons c t =>
      simp only [List.cons_append, List.cons.injEq] at h2
      left
      rw [mem_pathAncestors]
      exact ⟨hane, t, by rw [h1, h2.1]⟩
  · cases t with
    | nil => right; left; apply String.ext; simpa using h1
    | cons c t =>
      simp only [List.cons_append, List.cons.injEq] at h2
      right; right
      rw [mem_pathAncestors]
      exact ⟨hdne, t, by rw [h1, h2.1]⟩

theorem splitChars_head (l : List Char) :
    ∃ first tail, splitChars '/' l = first :: tail ∧
      (l = first ∨ ∃ rest, l = first ++ '/' :: rest) := by
  induction l with
  | nil => exact ⟨[], [], rfl, Or.inl rfl⟩
  | cons c cs ih =>
    obtain ⟨f, t, hs, hl⟩ := ih
    by_cases hc : c = '/'
    · subst hc
      exact ⟨[], splitChars '/' cs, by simp [splitChars], Or.inr ⟨cs, rfl⟩⟩
    · refine ⟨c :: f, t, by simp [splitChars, hc, hs], ?_⟩
      rcases hl with h | ⟨rest, h⟩
      · left; rw [h]
      · right; exact ⟨rest, by rw [h]; rfl⟩

theorem firstPathName_spec (p : PathKey) :
    p.PathName.data = p.FirstPathName.data ∨
      ∃ rest, p.PathName.data = p.FirstPathName.data ++ '/' :: rest := by
  obtain ⟨f, t, hs, hl⟩ := splitChars_head p.PathName.data
  have : p.FirstPathName = String.mk f := by
    simp [PathKey.FirstPathName, stringsSplit, hs]
  rw [this]
  exact hl

theorem splitChars_head_no_sep (l : List Char) :
    '/' ∉ ((splitChars '/' l).headD []) := by
  induction l with
  | nil => simp [splitChars]
  | cons c cs ih =>
    by_cases hc : c = '/'
    · simp [splitChars, hc]
    · cases hs : splitChars '/' cs with
      | nil => simp [splitChars, hc, hs, Ne.symm hc]
      | cons h t =>
        rw [hs] at ih
        simp only [List.headD_cons] at ih
        simp [splitChars, hc, hs, Ne.symm hc, ih]

theorem firstPathName_no_sep (p : PathKey) : '/' ∉ p.FirstPathName.data := by
  have h := splitChars_head_no_sep p.PathName.data
  obtain ⟨f, t, hs, _⟩ := splitChars_head p.PathName.data
  rw [hs] at h
  simpa [PathKey.FirstPathName, stringsSplit, hs] using h

/-- The directory `Store.Delete` removes is on the way to the object. -/
theorem delete_dir_mem_ancestors (s : Store) (id key : String) :
    s.Root ++ "/" ++ id ++ "/" ++ (s.PathTransformFunc key).FirstPathName ∈
      pathAncestors (s.fullPathWithRoot id key) := by
  rw [mem_pathAncestors]
  refine ⟨by simp [String.data_append], ?_⟩
  simp only [Store.fullPathWithRoot, PathKey.FullPath, String.data_append]
  rcases firstPathName_spec (s.PathTransformFunc key) with h | ⟨rest, h⟩
  · exact ⟨(s.PathTransformFunc key).Filename.data, by rw [h]; simp⟩
  · exact ⟨rest ++ '/' :: (s.PathTransformFunc key).Filename.data, by rw [h]; simp⟩

theorem stringBytes_length_append (a b : String) :
    (stringBytes (a ++ b)).length = (stringBytes a).length + (stringBytes b).length := by
  simp [stringBytes, String.data_append, List.flatMap_append]

theorem stringBytes_length_of_data (a p : String) (rest : List Char)
    (h : p.data = a.data ++ rest) : (stringBytes a).length ≤ (stringBytes p).length := by
  simp [stringBytes, h, List.flatMap_append]

theorem pathTooLong_eq_false (p : String) :
    pathTooLong p = false ↔ (stringBytes p).length < PATH_MAX := by
  simp [pathTooLong]

theorem pathTooLong_eq_true (p : String) :
    pathTooLong p = true ↔ PATH_MAX ≤ (stringBytes p).length := by
  simp [pathTooLong]

/-- A directory on the way to a path that is not too long is not too long. -/
theorem pathTooLong_ancestor (a p : String) (ha : a ∈ pathAncestors p)
    (hp : pathTooLong p = false) : pathTooLong a = false := by
  rw [pathTooLong_eq_false] at hp ⊢
  rw [mem_pathAncestors] at ha
  obtain ⟨_, rest, h⟩ := ha
  exact Nat.lt_of_le_of_lt (stringBytes_length_of_data a p _ h) hp

theorem trimLeadingSeps_suffix (x : List Char) (f : List Char) (c : Char) (hc : c ≠ '/') :
    ∃ x', trimLeadingSeps (x ++ '/' :: c :: f) = x' ++ '/' :: c :: f := by
  induction x with
  | nil =>
    refine ⟨[], ?_⟩
    simp only [List.nil_append]
    unfold trimLeadingSeps
    split
    · rename_i h
      simp only [List.cons.injEq, true_and] at h
      exact absurd h.1 hc
    · rfl
  | cons a x ih =>
    obtain ⟨x', hx'⟩ := ih
    unfold trimLeadingSeps
    split
    · rename_i rest h
      simp only [List.cons_append, List.cons.injEq] at h
      obtain ⟨ha, h2⟩ := h
      -- x ++ '/' :: c :: f = '/' :: rest
      rw [h2] at hx'
      exact ⟨x', hx'⟩
    · exact ⟨a :: x, rfl⟩

theorem trimTrailingSepsRev_id (c : Char) (l : List Char) (hc : c ≠ '/') :
    trimTrailingSepsRev (c :: l) = c :: l := by
  unfold trimTrailingSepsRev
  split
  · rename_i h
    simp only [List.cons.injEq] at h
    exact absurd h.1 hc
  · rfl

/-- The last element of a path that ends in a name is that name. -/
theorem splitPath_base (x f : String) (hf : '/' ∉ f.data) (hne : f ≠ "") :
    (splitPath (x ++ "/" ++ f)).2 = f := by
  have hdata : f.data ≠ [] := fun e => hne (String.ext e)
  obtain ⟨c, r, hr⟩ : ∃ c r, f.data.reverse = c :: r := by
    cases h : f.data.reverse with
    | nil => simp at h; exact absurd h hdata
    | cons c r => exact ⟨c, r, rfl⟩
  have hfd : f.data = r.reverse ++ [c] := by
    have := congrArg List.reverse hr
    simpa using this
  have hcr : c ≠ '/' ∧ '/' ∉ r := by
    rw [hfd] at hf
    simp only [List.mem_append, List.mem_reverse, List.mem_singleton, not_or] at hf
    exact ⟨fun e => hf.2 e.symm, hf.1⟩
  -- first character of f
  obtain ⟨d, g, hg⟩ : ∃ d g, f.data = d :: g := by
    cases h : f.data with
    | nil => exact absurd h hdata
    | cons d g => exact ⟨d, g, rfl⟩
  have hd : d ≠ '/' := by
    intro e
    apply hf
    rw [hg, e]
    simp
  obtain ⟨x', hx'⟩ := trimLeadingSeps_suffix x.data g d hd
  have hdw : (r ++ '/' :: x'.reverse).dropWhile (· ≠ '/') = '/' :: x'.reverse := by
    rw [List.dropWhile_append_of_pos]
    · simp
    · intro a ha
      simp only [ne_eq, decide_eq_true_eq]
      intro e
      exact hcr.2 (e ▸ ha)
  have htw2 : (r ++ '/' :: x'.reverse).takeWhile (· ≠ '/') = r := by
    rw [List.takeWhile_append_of_pos]
    · simp
    · intro a ha
      simp only [ne_eq, decide_eq_true_eq]
      intro e
      exact hcr.2 (e ▸ ha)
  have hrev : (x' ++ '/' :: f.data).reverse = c :: (r ++ '/' :: x'.reverse) := by
    simp [hr]
  unfold splitPath
  simp only [String.data_append, List.append_assoc]
  have hsl : ("/" : String).data ++ f.data = '/' :: d :: g := by
    rw [hg]; rfl
  rw [hsl, hx', ← hg, hrev, trimTrailingSepsRev_id c _ hcr.1]
  simp only [hdw, htw2]
  apply String.ext
  simp [hfd]

theorem endsWithDot_child (x f : String) (hf : '/' ∉ f.data) (hd : f ≠ ".") :
    endsWithDot (x ++ "/" ++ f) = false := by
  have hsl : ("/" : String).data = ['/'] := rfl
  have hrev : (x ++ "/" ++ f).data.reverse = f.data.reverse ++ '/' :: x.data.reverse := by
    simp [String.data_append, hsl]
  have h1 : x ++ "/" ++ f ≠ "." := by
    intro e
    have h := congrArg (fun t : String => t.data.reverse) e
    simp only [hrev] at h
    have hdot : (".": String).data.reverse = ['.'] := rfl
    rw [hdot] at h
    cases hr : f.data.reverse with
    | nil => rw [hr] at h; simp at h
    | cons c r =>
      rw [hr] at h
      simp only [List.cons_append, List.cons.injEq] at h
      have := congrArg List.length h.2
      simp at this
  have h2 : ((x ++ "/" ++ f).data.reverse.take 2 == ['.', '/']) = false := by
    rw [hrev]
    cases hr : f.data.reverse with
    | nil => simp
    | cons c r =>
      have hfd : f.data = r.reverse ++ [c] := by
        have := congrArg List.reverse hr
        simpa using this
      cases r with
      | nil =>
        have hc : c ≠ '.' := by
          intro e
          apply hd
          apply String.ext
          rw [hfd, e]
          rfl
        simp [hc]
      | cons c2 r2 =>
        have hc2 : c2 ≠ '/' := by
          intro e
          apply hf
          rw [hfd, e]
          simp
        simp [hc2]
  unfold endsWithDot
  rw [h2]
  simp [h1]

/-- Go `os.RemoveAll` of a name in a directory succeeds when the name is not `.` or `..`,
the path is not too long and no regular file is in the place of a directory on the way. -/
theorem osRemoveAll_child (fs : FS) (x f : String) (hf : '/' ∉ f.data) (hne : f ≠ "")
    (hd : f ≠ ".") (hdd : f ≠ "..") (hfit : pathTooLong (x ++ "/" ++ f) = false)
    (hfile : ∀ a ∈ pathAncestors (x ++ "/" ++ f), Node.isFile (fs a) = false) :
    osRemoveAll fs (x ++ "/" ++ f) = Except.ok (fs.without (x ++ "/" ++ f)) := by
  have h0 : x ++ "/" ++ f ≠ "" := by
    intro e
    have := congrArg String.data e
    simp [String.data_append] at this
  unfold osRemoveAll
  rw [if_neg h0, endsWithDot_child x f hf hd, splitPath_base x f hf hne, hfit]
  simp only [Bool.false_eq_true, if_false, false_and]
  rw [if_neg, if_neg]
  · exact fun h => hdd h.1
  · simp only [List.any_eq_true, not_exists, not_and, Bool.not_eq_true]
    exact hfile

/-- What a successful `os.RemoveAll` of a path that is not empty leaves. -/
theorem osRemoveAll_ok (fs fs' : FS) (d : String) (h : osRemoveAll fs d = Except.ok fs')
    (hd : d ≠ "") :
    fs' = fs.without d ∧ (pathAncestors d).any (fun a => Node.isFile (fs a)) = false := by
  unfold osRemoveAll at h
  rw [if_neg hd] at h
  split at h
  · simp at h
  · split at h
    · simp at h
    · split at h
      · simp at h
      · rename_i hfile
        split at h
        · simp at h
        · simp only [Except.ok.injEq] at h
          exact ⟨h.symm, by simpa using hfile⟩

theorem ne_empty_of_mem_pathAncestors (d p : String) (hp : d ∈ pathAncestors p) : d ≠ "" := by
  rw [mem_pathAncestors] at hp
  intro e
  exact hp.1 (by rw [e])

/-- After a successful `os.RemoveAll` of a directory, `os.Stat` of a path under it reports
that the path does not exist, unless the path is too long. -/
theorem osRemoveAll_stat (fs fs' : FS) (d p : String) (h : osRemoveAll fs d = Except.ok fs')
    (hp : d ∈ pathAncestors p) (hfit : pathTooLong p = false) :
    osStat fs' p = Except.error GoError.ErrNotExist := by
  obtain ⟨h, hfile⟩ := osRemoveAll_ok fs fs' d h (ne_empty_of_mem_pathAncestors d p hp)
  subst h
  have hnone : fs.without d p = none := by
    simp [FS.without, hp]
  unfold osStat
  simp only [hfit, hnone, Bool.false_eq_true, if_false]
  rw [if_neg]
  simp only [List.any_eq_false, List.any_eq_true, not_exists, not_and, Bool.not_eq_true] at hfile ⊢
  intro a ha
  rcases pathAncestors_comparable a d p ha hp with h1 | h1 | h1
  · have := hfile a h1
    by_cases hc : a = d ∨ d ∈ pathAncestors a
    · simp [FS.without, hc, Node.isFile]
    · simp [FS.without, hc, this]
  · simp [FS.without, h1, Node.isFile]
  · simp [FS.without, h1, Node.isFile]

/-- `Store.Has` for a path that is too long: `os.Stat` fails with an error that is not
`os.ErrNotExist`. -/
theorem has_of_too_long (s : Store) (fs : FS) (id key : String)
    (h : pathTooLong (s.fullPathWithRoot id key) = true) : s.Has fs id key = true := by
  simp [Store.Has, osStat, h]

/-- C7: for every store, whatever its path transform (`CASPathTransformFunc`,
`DefaultPathTransformFunc` or any other), every owner id and every key, when
`Store.Delete id key` returns without error: `Store.Has id key` is false afterwards as long as
the path of the object has fewer than `PATH_MAX` bytes, and it is true when the path has
`PATH_MAX` bytes or more, because `Store.Has` takes every error of `os.Stat` other than
`os.ErrNotExist` for an object that is there. -/
theorem delete_then_has (s : Store) (fs fs' : FS) (id key : String)
    (h : s.Delete fs id key = Except.ok fs') :
    ((stringBytes (s.fullPathWithRoot id key)).length < PATH_MAX →
      s.Has fs' id key = false) ∧
    (PATH_MAX ≤ (stringBytes (s.fullPathWithRoot id key)).length →
      s.Has fs' id key = true) := by
  constructor
  · intro hfit
    unfold Store.Delete at h
    unfold Store.Has
    rw [osRemoveAll_stat fs fs' _ _ h (delete_dir_mem_ancestors s id key)
      ((pathTooLong_eq_false _).2 hfit)]
  · intro hlong
    exact has_of_too_long s fs' id key ((pathTooLong_eq_true _).2 hlong)

theorem bytesReader_data (v : List Byte) : (bytesReader v).data = v := by
  unfold bytesReader Reader.data
  by_cases h : v = [] <;> simp [h]

theorem osCreate_ok (fs fs1 : FS) (p : String) (h : osCreate fs p = Except.ok fs1) :
    (fs1 = fun q => if q = p then some (Node.file []) else fs q) ∧ pathTooLong p = false := by
  unfold osCreate at h
  split at h
  · simp at h
  · rename_i hfit
    split at h
    · simp at h
    · split at h
      · simp at h
      · split at h
        · simp at h
        · simp only [Except.ok.injEq] at h
          exact ⟨h.symm, by simpa using hfit⟩

theorem osCreate_at (fs fs1 : FS) (p : String) (h : osCreate fs p = Except.ok fs1) :
    fs1 p = some (Node.file []) := by
  rw [(osCreate_ok fs fs1 p h).1]
  simp

/-- A path at which a file could be opened for writing is not too long. -/
theorem openFileForWriting_fits (s : Store) (fs fs1 : FS) (id key : String)
    (h : s.openFileForWriting fs id key = Except.ok fs1) :
    pathTooLong (s.fullPathWithRoot id key) = false := by
  unfold Store.openFileForWriting at h
  simp only at h
  split at h
  · simp at h
  · exact (osCreate_ok _ _ _ h).2

theorem openFileForWriting_at (s : Store) (fs fs1 : FS) (id key : String)
    (h : s.openFileForWriting fs id key = Except.ok fs1) :
    fs1 (s.fullPathWithRoot id key) = some (Node.file []) := by
  unfold Store.openFileForWriting at h
  simp only at h
  split at h
  · simp at h
  · exact osCreate_at _ _ _ h

theorem osOpen_file (fs : FS) (p : String) (c : List Byte) (h : fs p = some (Node.file c))
    (hfit : pathTooLong p = false) :
    osOpen fs p = Except.ok (c.length, bytesReader c) := by
  simp [osOpen, osStat, h, hfit]

theorem write_then_read_aux (s : Store) (fs fs' : FS) (id key : String) (r : Reader) (n : Nat)
    (h : s.Write fs id key r = (Except.ok n, fs')) :
    n = r.data.length ∧
    ∃ rd, s.Read fs' id key = Except.ok (r.data.length, rd) ∧ rd.data = r.data := by
  unfold Store.Write Store.writeStream at h
  split at h
  · simp at h
  · rename_i fs1 hopen
    have hat := openFileForWriting_at s fs fs1 id key hopen
    simp only [ioCopy] at h
    split at h
    · simp at h
    · simp only [Prod.mk.injEq, Except.ok.injEq] at h
      obtain ⟨hn, hfs⟩ := h
      refine ⟨hn.symm, bytesReader r.data, ?_, bytesReader_data _⟩
      unfold Store.Read Store.readStream
      apply osOpen_file _ _ _ _ (openFileForWriting_fits s fs fs1 id key hopen)
      rw [← hfs]
      simp [fileAppend, hat]

/-- C6: for every store, file system, owner id, key and reader: when `Store.Write id key`
succeeds with count `n`, then `n` is the number of bytes `v` the reader delivered, and
`Store.Read id key` on the resulting file system returns the size of `v` and a reader whose
bytes are `v`, whatever stood at that path before. -/
theorem write_then_read (s : Store) (fs : FS) (id key : String) (r : Reader) (n : Nat)
    (h : (s.Write fs id key r).1 = Except.ok n) :
    n = r.data.length ∧
    ∃ rd, s.Read (s.Write fs id key r).2 id key = Except.ok (r.data.length, rd) ∧
      rd.data = r.data :=
  write_then_read_aux s fs _ id key r n (by rw [← h])

/-! ## Frame codec -/

/-- C5, counterexample: for the empty byte sequence `B`, decoding the input that is `0x1`
followed by `B` returns the error `io.EOF`. -/
theorem decode_message_empty_payload_fails :
    (DefaultDecoder.Decode (bytesReader ([0x1] ++ [])) {}).1 = some GoError.EOF := by
  decide

theorem reader_read_one (b : Byte) (B : List Byte) (rest : List (List Byte)) (final : GoError) :
    Reader.Read { chunks := (b :: B) :: rest, final := final } 1 =
      ([b], none, { chunks := if B = [] then rest else B :: rest, final := final }) := by
  cases B with
  | nil => simp [Reader.Read]
  | cons c cs => simp [Reader.Read]

/-- C5, amended: for every non-empty byte sequence `B` of at most 1028 bytes,
`DefaultDecoder.Decode` on a buffer holding `0x1` followed by `B`, and on a connection that
delivers `0x1` and `B` in one or in two reads, returns no error and yields `Stream = false`
and `Payload = B`; when the input ends after `0x1` it returns the error of the second read;
on every input that starts with `0x2` it returns no error and yields `Stream = true` with an
empty payload. -/
theorem decode_frames (B : List Byte) (hB : B ≠ []) (hlen : B.length ≤ 1028) :
    DefaultDecoder.Decode (bytesReader (0x1 :: B)) {} =
      (none, { Stream := false, Payload := B }, { chunks := [] }) ∧
    (∀ (rest : List (List Byte)) (final : GoError),
      DefaultDecoder.Decode { chunks := (0x1 :: B) :: rest, final := final } {} =
        (none, { Stream := false, Payload := B }, { chunks := rest, final := final }) ∧
      DefaultDecoder.Decode { chunks := [0x1] :: B :: rest, final := final } {} =
        (none, { Stream := false, Payload := B }, { chunks := rest, final := final })) ∧
    (∀ (final : GoError),
      (DefaultDecoder.Decode { chunks := [[0x1]], final := final } {}).1 = some final) ∧
    (∀ (T : List Byte) (rest : List (List Byte)) (final : GoError),
      DefaultDecoder.Decode { chunks := (0x2 :: T) :: rest, final := final } {} =
        (none, { Stream := true, Payload := [] },
          { chunks := if T = [] then rest else T :: rest, final := final })) := by
  have key : ∀ (rest : List (List Byte)) (final : GoError),
      DefaultDecoder.Decode { chunks := (0x1 :: B) :: rest, final := final } {} =
        (none, { Stream := false, Payload := B }, { chunks := rest, final := final }) := by
    intro rest final
    simp only [DefaultDecoder.Decode, reader_read_one, hB, if_false]
    simp [Reader.Read, IncomingStream, hlen]
  refine ⟨?_, fun rest final => ⟨key rest final, ?_⟩, ?_, ?_⟩
  · simpa [bytesReader] using key [] GoError.EOF
  · simp only [DefaultDecoder.Decode, reader_read_one, if_true]
    simp [Reader.Read, IncomingStream, hlen]
  · intro final
    simp [DefaultDecoder.Decode, Reader.Read, IncomingStream]
  · intro T rest final
    simp only [DefaultDecoder.Decode, reader_read_one]
    simp [IncomingStream]

/-- C5, example: the buffer `[0x01, 0x41, 0x42]` decodes to the payload `[0x41, 0x42]`. -/
theorem decode_frames_witness :
    DefaultDecoder.Decode (bytesReader [0x1, 0x41, 0x42]) {} =
      (none, { Stream := false, Payload := [0x41, 0x42] }, { chunks := [] }) :=
  (decode_frames [0x41, 0x42] (by decide) (by decide)).1

/-! ## Stream encryption -/

theorem byte_xor_cancel (a k : Byte) : (a ^^^ k) ^^^ k = a := by
  cases a with | mk a => cases k with | mk k =>
  show UInt8.xor (UInt8.xor ⟨a⟩ ⟨k⟩) ⟨k⟩ = ⟨a⟩
  simp only [UInt8.xor]
  congr 1
  rw [BitVec.xor_assoc, BitVec.xor_self, BitVec.xor_zero]

theorem xorKeyStream_eq (env : Env) (key iv : List Byte) (pos : Nat) (data : List Byte) :
    CtrStream.XORKeyStream env { key := key, iv := iv, pos := pos } data =
      (ctrXor env key iv pos data, { key := key, iv := iv, pos := pos + data.length }) := by
  simp only [CtrStream.XORKeyStream, Prod.mk.injEq, and_true]
  induction data generalizing pos with
  | nil => rfl
  | cons b bs ih =>
    have h : (fun i => keystreamByte env key iv (pos + (i + 1))) =
        fun i => keystreamByte env key iv (pos + 1 + i) := by
      funext i
      rw [Nat.add_assoc, Nat.add_comm 1 i]
    rw [List.length_cons, List.range_succ_eq_map, List.map_cons, List.map_map,
      List.zipWith_cons_cons, ctrXor, ← ih (pos + 1)]
    simp only [Function.comp_def, Nat.succ_eq_add_one, Nat.add_zero, h]

theorem ctrXor_length (env : Env) (key iv : List Byte) (pos : Nat) (data : List Byte) :
    (ctrXor env key iv pos data).length = data.length := by
  induction data generalizing pos with
  | nil => rfl
  | cons b bs ih => simp [ctrXor, ih]

theorem ctrXor_append (env : Env) (key iv : List Byte) (pos : Nat) (a b : List Byte) :
    ctrXor env key iv pos (a ++ b) =
      ctrXor env key iv pos a ++ ctrXor env key iv (pos + a.length) b := by
  induction a generalizing pos with
  | nil => simp [ctrXor]
  | cons x xs ih =>
    have : pos + 1 + xs.length = pos + (xs.length + 1) := by omega
    rw [List.cons_append, ctrXor, ctrXor, ih, this, List.length_cons, List.cons_append]

theorem ctrXor_ctrXor (env : Env) (key iv : List Byte) (pos : Nat) (data : List Byte) :
    ctrXor env key iv pos (ctrXor env key iv pos data) = data := by
  induction data generalizing pos with
  | nil => rfl
  | cons b bs ih => simp [ctrXor, ih, byte_xor_cancel]

theorem copyStreamLoop_spec (env : Env) (key iv : List Byte) (fuel : Nat) :
    ∀ (pos : Nat) (src : Reader) (nw : Nat) (w : List (List Byte)),
      src.final = GoError.EOF → src.size + 1 ≤ fuel →
      (copyStreamLoop env fuel { key := key, iv := iv, pos := pos } src nw w).result =
          Except.ok (nw + src.data.length) ∧
      (copyStreamLoop env fuel { key := key, iv := iv, pos := pos } src nw w).written.flatten =
          w.flatten ++ ctrXor env key iv pos src.data ∧
      (copyStreamLoop env fuel { key := key, iv := iv, pos := pos } src nw w).src.chunks = [] := by
  induction fuel with
  | zero => intro pos src nw w _ h; omega
  | succ fuel ih =>
    intro pos src nw w hfin hfuel
    obtain ⟨chunks, final⟩ := src
    simp only at hfin
    subst hfin
    cases chunks with
    | nil =>
      simp [copyStreamLoop, Reader.Read, Reader.data, ctrXor]
    | cons c cs =>
      by_cases hc : c.length ≤ 32 * 1024
      · have hsz : (Reader.mk cs GoError.EOF).size + 1 ≤ fuel := by
          simp only [Reader.size, Reader.data, List.length_cons, List.flatten_cons,
            List.length_append] at hfuel ⊢
          omega
        by_cases hpos : c.length > 0
        · have := ih (pos + c.length) ⟨cs, GoError.EOF⟩ (nw + c.length)
            (w ++ [ctrXor env key iv pos c]) rfl hsz
          simp only [copyStreamLoop, Reader.Read, hc, if_true, hpos, xorKeyStream_eq]
          simp only [Reader.data, List.flatten_cons, List.length_append, ctrXor_append,
            List.flatten_append, List.flatten_nil, List.append_nil, List.append_assoc] at this ⊢
          refine ⟨?_, this.2.1, this.2.2⟩
          rw [this.1]; congr 1; omega
        · have hnil : c = [] := List.length_eq_zero.1 (by omega)
          subst hnil
          have := ih pos ⟨cs, GoError.EOF⟩ nw w rfl hsz
          simpa [copyStreamLoop, Reader.Read, Reader.data] using this
      · have hlt : 32 * 1024 < c.length := by omega
        have hsz : (Reader.mk (c.drop (32 * 1024) :: cs) GoError.EOF).size + 1 ≤ fuel := by
          simp only [Reader.size, Reader.data, List.length_cons, List.flatten_cons,
            List.length_append, List.length_drop] at hfuel ⊢
          omega
        have htake : (c.take (32 * 1024)).length = 32 * 1024 := by
          rw [List.length_take]; omega
        have := ih (pos + 32 * 1024) ⟨c.drop (32 * 1024) :: cs, GoError.EOF⟩ (nw + 32 * 1024)
          (w ++ [ctrXor env key iv pos (c.take (32 * 1024))]) rfl hsz
        simp only [copyStreamLoop, Reader.Read, hc, if_false, htake, xorKeyStream_eq]
        have hsplit : c = c.take (32 * 1024) ++ c.drop (32 * 1024) :=
          (List.take_append_drop _ _).symm
        simp only [Reader.data, List.flatten_cons, List.length_append, ctrXor_append,
          List.flatten_append, List.flatten_nil, List.append_nil, List.append_assoc,
          List.length_drop] at this ⊢
        refine ⟨?_, ?_, ?_⟩
        · simp only [show (32 * 1024 > 0) = True from by simp, if_true]
          rw [this.1]; congr 1; omega
        · simp only [show (32 * 1024 > 0) = True from by simp, if_true]
          rw [this.2.1]
          conv_rhs => rw [hsplit, ctrXor_append, htake]
          have e : pos + 32 * 1024 + (c.length - 32 * 1024) = pos + c.length := by omega
          simp [e]
        · simp only [show (32 * 1024 > 0) = True from by simp, if_true]
          exact this.2.2


theorem copyStream_spec (env : Env) (key iv : List Byte) (src : Reader)
    (hfin : src.final = GoError.EOF) :
    (copyStream env { key := key, iv := iv, pos := 0 } 16 src).result =
        Except.ok (16 + src.data.length) ∧
    (copyStream env { key := key, iv := iv, pos := 0 } 16 src).written.flatten =
        ctrXor env key iv 0 src.data ∧
    (copyStream env { key := key, iv := iv, pos := 0 } 16 src).src.chunks = [] := by
  have := copyStreamLoop_spec env key iv (src.size + 1) 0 src 16 [] hfin (Nat.le_refl _)
  simpa [copyStream] using this

theorem aesNewCipher_32 (key : List Byte) (hk : key.length = 32) :
    aesNewCipher key = Except.ok () := by
  simp [aesNewCipher, hk]

theorem copyEncrypt_spec (env : Env) (key : List Byte) (hk : key.length = 32) (rnd src : Reader)
    (hr : 16 ≤ rnd.data.length) (hfin : src.final = GoError.EOF) :
    (copyEncrypt env key rnd src).result = Except.ok (16 + src.data.length) ∧
    (copyEncrypt env key rnd src).written.flatten =
      rnd.data.take 16 ++ ctrXor env key (rnd.data.take 16) 0 src.data := by
  have h := copyStream_spec env key (rnd.data.take 16) src hfin
  simp only [copyEncrypt, aesNewCipher_32 key hk, ioReadFull, hr, if_true]
  exact ⟨h.1, by rw [List.flatten_cons, h.2.1]⟩

theorem bytesReader_of_ne_nil (v : List Byte) (h : v ≠ []) :
    bytesReader v = { chunks := [v], final := GoError.EOF } := by
  simp [bytesReader, h]

theorem copyDecrypt_buffer (env : Env) (key : List Byte) (hk : key.length = 32)
    (iv ct : List Byte) (hiv : iv.length = 16) :
    (copyDecrypt env key (bytesReader (iv ++ ct))).result = Except.ok (16 + ct.length) ∧
    (copyDecrypt env key (bytesReader (iv ++ ct))).written.flatten = ctrXor env key iv 0 ct := by
  have hne : iv ++ ct ≠ [] := by
    intro h
    have := congrArg List.length h
    simp [hiv] at this
  rw [bytesReader_of_ne_nil _ hne]
  by_cases hct : ct = []
  · subst hct
    have h := copyStream_spec env key iv ⟨[], GoError.EOF⟩ rfl
    simp only [copyDecrypt, aesNewCipher_32 key hk, Reader.Read,
      List.append_nil, hiv, Nat.le_refl, if_true, Nat.sub_self, List.replicate_zero]
    exact ⟨h.1, h.2.1⟩
  · have hlen : ¬ (iv ++ ct).length ≤ 16 := by
      have : 0 < ct.length := List.length_pos.2 hct
      simp only [List.length_append, hiv]
      omega
    have h := copyStream_spec env key iv ⟨[ct], GoError.EOF⟩ rfl
    have ht : (iv ++ ct).take 16 = iv := by
      rw [← hiv, List.take_left']
      rfl
    have hd : (iv ++ ct).drop 16 = ct := by
      rw [← hiv, List.drop_left']
      rfl
    simp only [copyDecrypt, aesNewCipher_32 key hk, Reader.Read,
      hlen, if_false, ht, hd, hiv, Nat.sub_self, List.replicate_zero, List.append_nil]
    simpa [Reader.data] using And.intro h.1 h.2.1

/-- C3: for every 32-byte key and every plaintext `p`, of any length and however the source
splits it across reads: `copyEncrypt` returns and writes `len(p) + 16` bytes, and
`copyDecrypt` with the same key on a buffer holding those bytes writes exactly `p`. -/
theorem encrypt_decrypt_roundtrip (env : Env) (key : List Byte) (hk : key.length = 32)
    (rnd : Reader) (hr : 16 ≤ rnd.data.length) (src : Reader) (hfin : src.final = GoError.EOF) :
    (copyEncrypt env key rnd src).result = Except.ok (src.data.length + 16) ∧
    (copyEncrypt env key rnd src).written.flatten.length = src.data.length + 16 ∧
    (copyDecrypt env key (bytesReader (copyEncrypt env key rnd src).written.flatten)).result =
      Except.ok (src.data.length + 16) ∧
    (copyDecrypt env key
      (bytesReader (copyEncrypt env key rnd src).written.flatten)).written.flatten = src.data := by
  have he := copyEncrypt_spec env key hk rnd src hr hfin
  have hiv : (rnd.data.take 16).length = 16 := by
    rw [List.length_take]; omega
  have hd := copyDecrypt_buffer env key hk (rnd.data.take 16)
    (ctrXor env key (rnd.data.take 16) 0 src.data) hiv
  rw [he.2]
  refine ⟨by rw [he.1, Nat.add_comm], ?_, ?_, ?_⟩
  · rw [List.length_append, hiv, ctrXor_length, Nat.add_comm]
  · rw [hd.1, ctrXor_length, Nat.add_comm]
  · rw [hd.2, ctrXor_ctrXor]

/-! ## Little-endian sizes -/

theorem uint8_ofNat_toNat (n : Nat) (h : n < 256) : (UInt8.ofNat n).toNat = n := by
  simp [UInt8.ofNat, UInt8.toNat, Nat.mod_eq_of_lt h]

theorem int64ToLE_length (v : Int) : (int64ToLE v).length = 8 := by
  simp [int64ToLE, natBytesLE]

theorem int64OfLE_bytes (b0 b1 b2 b3 b4 b5 b6 b7 : Nat) (h0 : b0 < 256) (h1 : b1 < 256)
    (h2 : b2 < 256) (h3 : b3 < 256) (h4 : b4 < 256) (h5 : b5 < 256) (h6 : b6 < 256)
    (h7 : b7 < 128) :
    int64OfLE [UInt8.ofNat b0, UInt8.ofNat b1, UInt8.ofNat b2, UInt8.ofNat b3, UInt8.ofNat b4,
      UInt8.ofNat b5, UInt8.ofNat b6, UInt8.ofNat b7] =
      ((b0 + b1 * 256 + b2 * 65536 + b3 * 16777216 + b4 * 4294967296 + b5 * 1099511627776 +
        b6 * 281474976710656 + b7 * 72057594037927936 : Nat) : Int) := by
  have e : List.range 8 = [0, 1, 2, 3, 4, 5, 6, 7] := by decide
  have h7' : b7 < 256 := by omega
  simp only [int64OfLE, e, List.foldl, List.getD_cons_zero, List.getD_cons_succ,
    uint8_ofNat_toNat _ h0, uint8_ofNat_toNat _ h1, uint8_ofNat_toNat _ h2,
    uint8_ofNat_toNat _ h3, uint8_ofNat_toNat _ h4, uint8_ofNat_toNat _ h5,
    uint8_ofNat_toNat _ h6, uint8_ofNat_toNat _ h7']
  norm_num
  omega

theorem int64_roundtrip (n : Nat) (h : n < 2 ^ 63) : int64OfLE (int64ToLE (n : Int)) = (n : Int) := by
  have hmod : ((n : Int) % 2 ^ 64).toNat = n := by omega
  have e : List.range 8 = [0, 1, 2, 3, 4, 5, 6, 7] := by decide
  have hl : int64ToLE (n : Int) =
      [UInt8.ofNat (n % 256), UInt8.ofNat (n / 256 % 256), UInt8.ofNat (n / 65536 % 256),
       UInt8.ofNat (n / 16777216 % 256), UInt8.ofNat (n / 4294967296 % 256),
       UInt8.ofNat (n / 1099511627776 % 256), UInt8.ofNat (n / 281474976710656 % 256),
       UInt8.ofNat (n / 72057594037927936 % 256)] := by
    simp only [int64ToLE, natBytesLE, hmod, e, List.map, Nat.shiftRight_eq_div_pow]
    norm_num
  rw [hl, int64OfLE_bytes _ _ _ _ _ _ _ _ (by omega) (by omega) (by omega) (by omega) (by omega)
    (by omega) (by omega) (by omega)]
  congr 1
  omega

/-! ## File server -/

theorem pathAncestors_trans (a d p : String) (ha : a ∈ pathAncestors d)
    (hd : d ∈ pathAncestors p) : a ∈ pathAncestors p := by
  rw [mem_pathAncestors] at ha hd ⊢
  obtain ⟨hane, ra, hra⟩ := ha
  obtain ⟨_, rd, hrd⟩ := hd
  exact ⟨hane, ra ++ '/' :: rd, by rw [hrd, hra]; simp⟩

theorem not_mem_pathAncestors_self (p : String) : p ∉ pathAncestors p := by
  rw [mem_pathAncestors]
  rintro ⟨_, rest, h⟩
  have := congrArg List.length h
  simp at this

/-- The directories on the way to a file whose name holds no separator are the directory it
stands in and the directories on the way to that one. -/
theorem mem_pathAncestors_child (a x f : String) (hx : x.data ≠ []) (hf : '/' ∉ f.data) :
    a ∈ pathAncestors (x ++ "/" ++ f) ↔ a ∈ pathAncestors x ∨ a = x := by
  simp only [mem_pathAncestors, String.data_append]
  constructor
  · rintro ⟨hane, rest, h⟩
    have h' : x.data ++ '/' :: f.data = a.data ++ '/' :: rest := by simpa using h
    rcases List.append_eq_append_iff.1 h' with ⟨t, h1, h2⟩ | ⟨t, h1, h2⟩
    · cases t with
      | nil => right; apply String.ext; simpa using h1
      | cons c t =>
        simp only [List.cons_append, List.cons.injEq] at h2
        exfalso
        apply hf
        rw [h2.2]
        simp
    · cases t with
      | nil => right; apply String.ext; simpa using h1.symm
      | cons c t =>
        simp only [List.cons_append, List.cons.injEq] at h2
        left
        exact ⟨hane, t, by rw [h1, h2.1]⟩
  · rintro (⟨hane, rest, h⟩ | rfl)
    · exact ⟨hane, rest ++ '/' :: f.data, by rw [h]; simp⟩
    · exact ⟨hx, f.data, by simp⟩

theorem osMkdirAll_ok (fs fs1 : FS) (p : String) (h : osMkdirAll fs p = Except.ok fs1) :
    fs1 = fun q => if q = p ∨ q ∈ pathAncestors p then some Node.dir else fs q := by
  unfold osMkdirAll at h
  split at h
  · simp at h
  · split at h
    · simp at h
    · simpa using h.symm

/-- The directory of the object for `(id, key)`. -/
theorem fullPathWithRoot_eq (s : Store) (id key : String) :
    s.fullPathWithRoot id key =
      (s.Root ++ "/" ++ id ++ "/" ++ (s.PathTransformFunc key).PathName) ++ "/" ++
        (s.PathTransformFunc key).Filename := by
  apply String.ext
  simp [Store.fullPathWithRoot, PathKey.FullPath, String.data_append]

theorem openFileForWriting_ok (s : Store) (fs fs2 : FS) (id key : String)
    (h : s.openFileForWriting fs id key = Except.ok fs2) :
    fs2 = fun q =>
      if q = s.fullPathWithRoot id key then some (Node.file [])
      else if q = s.Root ++ "/" ++ id ++ "/" ++ (s.PathTransformFunc key).PathName ∨
          q ∈ pathAncestors (s.Root ++ "/" ++ id ++ "/" ++ (s.PathTransformFunc key).PathName)
        then some Node.dir
      else fs q := by
  unfold Store.openFileForWriting at h
  simp only at h
  split at h
  · simp at h
  · rename_i fs1 hmk
    rw [(osCreate_ok _ _ _ h).1, osMkdirAll_ok _ _ _ hmk]

theorem limitChunks_flatten (n : Nat) (cs : List (List Byte)) :
    (limitChunks n cs).flatten = cs.flatten.take n := by
  induction cs generalizing n with
  | nil => simp [limitChunks]
  | cons c cs ih =>
    unfold limitChunks
    by_cases h0 : n = 0
    · simp [h0]
    · by_cases hc : c.length ≤ n
      · simp only [h0, hc, if_true, if_false, List.flatten_cons, ih, List.take_append_eq_append_take]
        rw [List.take_of_length_le hc]
      · simp only [h0, hc, if_false, List.flatten_cons, List.flatten_nil, List.append_nil,
          List.take_append_eq_append_take]
        have : n - c.length = 0 := by omega
        simp [this]

theorem dropChunks_flatten (n : Nat) (cs : List (List Byte)) :
    (dropChunks n cs).flatten = cs.flatten.drop n := by
  induction cs generalizing n with
  | nil => simp [dropChunks]
  | cons c cs ih =>
    unfold dropChunks
    by_cases h0 : n = 0
    · simp [h0]
    · by_cases hc : c.length ≤ n
      · simp only [h0, hc, if_true, if_false, List.flatten_cons, ih, List.drop_append_eq_append_drop]
        rw [List.drop_of_length_le hc]
        rfl
      · simp only [h0, hc, if_false, List.flatten_cons, List.drop_append_eq_append_drop]
        have : n - c.length = 0 := by omega
        simp [this]

theorem limitReader_data (r : Reader) (n : Int) :
    (limitReader r n).data = r.data.take n.toNat := by
  simp [limitReader, Reader.data, limitChunks_flatten]

theorem ioCopy_limitReader (r : Reader) (n : Int) (h : n.toNat ≤ r.data.length) :
    ioCopy (limitReader r n) = (r.data.take n.toNat, none) := by
  simp only [ioCopy, limitReader_data]
  simp [limitReader, h]

theorem write_ok (s : Store) (fs fs1 : FS) (id key : String) (r : Reader)
    (hopen : s.openFileForWriting fs id key = Except.ok fs1)
    (hcopy : (ioCopy r).2 = none) :
    s.Write fs id key r =
      (Except.ok (ioCopy r).1.length,
        fun q => if q = s.fullPathWithRoot id key then some (Node.file (ioCopy r).1) else fs1 q) := by
  have hat := openFileForWriting_at s fs fs1 id key hopen
  unfold Store.Write Store.writeStream
  rw [hopen]
  simp only
  rw [hcopy]
  simp only [Prod.mk.injEq, true_and]
  funext q
  by_cases hq : q = s.fullPathWithRoot id key
  · simp [fileAppend, hq, hat]
  · simp [fileAppend, hq]

theorem ioCopy_eof (r : Reader) (h : r.final = GoError.EOF) : ioCopy r = (r.data, none) := by
  simp [ioCopy, h]

theorem lookup_map_replace (l : List (String × Peer)) (a : String) (p q : Peer)
    (h : l.lookup a = some p) :
    (l.map fun ap => if ap.1 = a then (ap.1, q) else ap).lookup a = some q := by
  induction l with
  | nil => simp at h
  | cons x xs ih =>
    obtain ⟨xa, xp⟩ := x
    by_cases hx : a = xa
    · subst hx
      rw [List.map_cons, if_pos rfl]
      simp [List.lookup]
    · have hx' : ¬ xa = a := fun e => hx e.symm
      have hb : (a == xa) = false := by simpa using hx
      simp only [List.lookup, hb] at h
      rw [List.map_cons, if_neg hx']
      simp only [List.lookup, hb]
      exact ih h

theorem lookup_setPeer (s : FileServer) (a : String) (p q : Peer)
    (h : s.peers.lookup a = some p) : (s.setPeer a q).peers.lookup a = some q :=
  lookup_map_replace s.peers a p q h

theorem handleMessageStoreFile_ok (s : FileServer) (sender : String) (msg : MessageStoreFile)
    (peer : Peer) (fs1 : FS) (hpeer : s.peers.lookup sender = some peer)
    (hopen : s.store.openFileForWriting s.fs msg.ID msg.Key = Except.ok fs1)
    (hsize : msg.Size.toNat ≤ peer.inbox.data.length) :
    s.handleMessageStoreFile sender msg =
      (none,
        { s with fs := fun q => if q = s.store.fullPathWithRoot msg.ID msg.Key
            then some (Node.file (peer.inbox.data.take msg.Size.toNat)) else fs1 q }.setPeer sender
          { peer with inbox := peer.inbox.advance msg.Size.toNat }) := by
  unfold FileServer.handleMessageStoreFile
  rw [hpeer]
  simp only
  rw [write_ok s.store s.fs fs1 msg.ID msg.Key _ hopen
    (by rw [ioCopy_limitReader _ _ hsize]), hopen, ioCopy_limitReader _ _ hsize]
  simp only [limitReader_data, List.length_take, Nat.min_eq_left hsize]

theorem store_ok (env : Env) (s : FileServer) (key : String) (r rnd : Reader) (fs1 : FS)
    (hk : s.EncKey.length = 32) (hr : 16 ≤ rnd.data.length) (hfin : r.final = GoError.EOF)
    (hopen : s.store.openFileForWriting s.fs s.ID key = Except.ok fs1) :
    (s.Store env key r rnd).1 = none ∧
    (s.Store env key r rnd).2.fs =
      (fun q => if q = s.store.fullPathWithRoot s.ID key then some (Node.file r.data) else fs1 q) ∧
    (s.Store env key r rnd).2.peers = s.peers.map (fun ap =>
      (ap.1, { ap.2 with outbox := ap.2.outbox ++
        ([[IncomingMessage], env.gobEncode (s.storeMessage key r.data.length), [IncomingStream]] ++
          (s.storeStream env r rnd)) })) ∧
    (s.Store env key r rnd).2.store = s.store ∧
    (s.Store env key r rnd).2.ID = s.ID ∧
    (s.Store env key r rnd).2.EncKey = s.EncKey := by
  have hw := write_ok s.store s.fs fs1 s.ID key r hopen (by rw [ioCopy_eof r hfin])
  have he := copyEncrypt_spec env s.EncKey hk rnd (bytesReader r.data) hr rfl
  unfold FileServer.Store
  simp only [hw, ioCopy_eof r hfin, he.1]
  refine ⟨trivial, rfl, ?_, rfl, rfl, rfl⟩
  simp [FileServer.mapPeers, FileServer.broadcast, FileServer.storeStream, Peer.Send,
    ioCopy_eof r hfin]

theorem storeStream_flatten (env : Env) (s : FileServer) (r rnd : Reader)
    (hk : s.EncKey.length = 32) (hr : 16 ≤ rnd.data.length) (hfin : r.final = GoError.EOF) :
    (s.storeStream env r rnd).flatten =
      rnd.data.take 16 ++ ctrXor env s.EncKey (rnd.data.take 16) 0 r.data := by
  have he := copyEncrypt_spec env s.EncKey hk rnd (bytesReader r.data) hr rfl
  rw [bytesReader_data] at he
  simp only [FileServer.storeStream, ioCopy_eof r hfin]
  exact he.2

theorem storeStream_length (env : Env) (s : FileServer) (r rnd : Reader)
    (hk : s.EncKey.length = 32) (hr : 16 ≤ rnd.data.length) (hfin : r.final = GoError.EOF) :
    (s.storeStream env r rnd).flatten.length = r.data.length + 16 := by
  rw [storeStream_flatten env s r rnd hk hr hfin, List.length_append, ctrXor_length,
    List.length_take]
  omega

theorem isOk_iff {α : Type} (x : Except GoError α) : x.isOk = true ↔ ∃ v, x = Except.ok v := by
  cases x with
  | error e => simp [Except.isOk, Except.toBool]
  | ok v => simp [Except.isOk, Except.toBool]

theorem filter_ne_nil_flatten (out : List (List Byte)) :
    (out.filter (fun c => !decide (c = []))).flatten = out.flatten := by
  induction out with
  | nil => rfl
  | cons c cs ih =>
    by_cases hc : c = []
    · simp [hc, ih]
    · simp [List.filter_cons, hc, ih]

theorem deliver_data (inbox : Reader) (out : List (List Byte)) :
    (deliver inbox out).data = inbox.data ++ out.flatten := by
  simp [deliver, Reader.data, filter_ne_nil_flatten]

theorem read_of_file (s : Store) (fs : FS) (id key : String) (c : List Byte)
    (h : fs (s.fullPathWithRoot id key) = some (Node.file c))
    (hfit : pathTooLong (s.fullPathWithRoot id key) = false) :
    s.Read fs id key = Except.ok (c.length, bytesReader c) :=
  osOpen_file fs _ c h hfit

/-- C8: when `FileServer.Store` writes a plaintext of `n` bytes locally, the `Size` field of
the `MessageStoreFile` it broadcasts is `n + 16`, the slices it writes to every peer after
the `0x2` marker hold `n + 16` bytes, and the object the recipient's
`handleMessageStoreFile` writes is exactly those `n + 16` bytes. -/
theorem store_size_accounting (env : Env) (S P : FileServer) (key aS : String) (r rnd : Reader)
    (peer : Peer) (later : List (List Byte))
    (hk : S.EncKey.length = 32) (hr : 16 ≤ rnd.data.length) (hfin : r.final = GoError.EOF)
    (hSopen : (S.store.openFileForWriting S.fs S.ID key).isOk = true)
    (hpeer : P.peers.lookup aS = some peer)
    (hin : peer.inbox = deliver { chunks := [] } (S.storeStream env r rnd ++ later))
    (hPopen : (P.store.openFileForWriting P.fs S.ID (hashKey key)).isOk = true) :
    (S.Store env key r rnd).1 = none ∧
    (S.Store env key r rnd).2.peers = S.peers.map (fun ap =>
      (ap.1, { ap.2 with outbox := ap.2.outbox ++
        ([[IncomingMessage],
          env.gobEncode (Message.storeFile
            { ID := S.ID, Key := hashKey key, Size := (r.data.length : Int) + 16 }),
          [IncomingStream]] ++ (S.storeStream env r rnd)) })) ∧
    (S.storeStream env r rnd).flatten.length = r.data.length + 16 ∧
    (P.handleMessageStoreFile aS
        { ID := S.ID, Key := hashKey key, Size := (r.data.length : Int) + 16 }).1 = none ∧
    (P.handleMessageStoreFile aS
        { ID := S.ID, Key := hashKey key, Size := (r.data.length : Int) + 16 }).2.store.Read
      (P.handleMessageStoreFile aS
        { ID := S.ID, Key := hashKey key, Size := (r.data.length : Int) + 16 }).2.fs
      S.ID (hashKey key) =
        Except.ok (r.data.length + 16, bytesReader (S.storeStream env r rnd).flatten) := by
  obtain ⟨fsS, hSopen⟩ := (isOk_iff _).1 hSopen
  obtain ⟨fsP, hPopen⟩ := (isOk_iff _).1 hPopen
  have hs := store_ok env S key r rnd fsS hk hr hfin hSopen
  have hlen := storeStream_length env S r rnd hk hr hfin
  have hnat : ((r.data.length : Int) + 16).toNat = r.data.length + 16 := by omega
  have hdata : peer.inbox.data = (S.storeStream env r rnd).flatten ++ later.flatten := by
    rw [hin, deliver_data]
    simp [Reader.data]
  have hsize : ((r.data.length : Int) + 16).toNat ≤ peer.inbox.data.length := by
    rw [hnat, hdata, List.length_append, hlen]
    omega
  have hh := handleMessageStoreFile_ok P aS
    { ID := S.ID, Key := hashKey key, Size := (r.data.length : Int) + 16 } peer fsP hpeer hPopen hsize
  refine ⟨hs.1, hs.2.2.1, hlen, ?_, ?_⟩
  · rw [hh]
  · rw [hh]
    have htake : peer.inbox.data.take ((r.data.length : Int) + 16).toNat =
        (S.storeStream env r rnd).flatten := by
      rw [hnat, hdata, ← hlen, List.take_left']
      rfl
    simp only [htake]
    rw [← hlen]
    apply read_of_file
    · simp [FileServer.setPeer]
    · simpa [FileServer.setPeer] using openFileForWriting_fits _ _ _ _ _ hPopen

theorem has_false_iff (s : Store) (fs : FS) (id key : String) :
    s.Has fs id key = false ↔
      pathTooLong (s.fullPathWithRoot id key) = false ∧
      fs (s.fullPathWithRoot id key) = none ∧
        ∀ a ∈ pathAncestors (s.fullPathWithRoot id key), Node.isFile (fs a) = false := by
  unfold Store.Has osStat
  cases hlong : pathTooLong (s.fullPathWithRoot id key) with
  | true => simp
  | false =>
    simp only [Bool.false_eq_true, if_false, true_and]
    cases h : fs (s.fullPathWithRoot id key) with
    | some n => simp
    | none =>
      simp only [true_and]
      by_cases hany : (pathAncestors (s.fullPathWithRoot id key)).any
          (fun a => Node.isFile (fs a)) = true
      · simp only [hany, if_true]
        simp only [List.any_eq_true] at hany
        obtain ⟨a, ha, hf⟩ := hany
        constructor
        · intro hc; simp at hc
        · intro hall
          rw [hall a ha] at hf
          simp at hf
      · simp only [List.any_eq_true, not_exists, not_and, Bool.not_eq_true] at hany
        have hany' : (pathAncestors (s.fullPathWithRoot id key)).any
            (fun a => Node.isFile (fs a)) = false := by
          rw [List.any_eq_false]
          intro a ha
          simp [hany a ha]
        simp only [hany', Bool.false_eq_true, if_false, true_iff]
        exact hany

/-- Writing an object leaves what `Has` says about a path that is neither on the way to the
object nor below it. -/
theorem has_frame (s : Store) (fs : FS) (x h : String) (c : List Byte) (id key : String)
    (hx : x ∈ pathAncestors h)
    (hne : s.fullPathWithRoot id key ≠ h)
    (h1 : s.fullPathWithRoot id key ∉ pathAncestors h)
    (h2 : h ∉ pathAncestors (s.fullPathWithRoot id key))
    (hhas : s.Has fs id key = false) :
    s.Has (fsAfterWrite fs x h c) id key = false := by
  rw [has_false_iff] at hhas ⊢
  obtain ⟨hfit, hnone, hanc⟩ := hhas
  refine ⟨hfit, ?_⟩
  have hq : ∀ q, q ≠ h → ¬ (q = x ∨ q ∈ pathAncestors x) → fsAfterWrite fs x h c q = fs q := by
    intro q hq1 hq2
    simp [fsAfterWrite, hq1, hq2]
  constructor
  · rw [hq _ hne, hnone]
    rintro (e | e)
    · exact h1 (e ▸ hx)
    · exact h1 (pathAncestors_trans _ _ _ e hx)
  · intro a ha
    by_cases hah : a = h
    · exact absurd (hah ▸ ha) h2
    · by_cases hax : a = x ∨ a ∈ pathAncestors x
      · simp [fsAfterWrite, hah, hax, Node.isFile]
      · rw [hq a hah hax]
        exact hanc a ha

theorem write_fs (s : Store) (fs : FS) (id key : String) (r : Reader) :
    (s.Write fs id key r).2 = fs ∨
      (s.Write fs id key r).2 =
        fsAfterWrite fs (s.Root ++ "/" ++ id ++ "/" ++ (s.PathTransformFunc key).PathName)
          (s.fullPathWithRoot id key) (ioCopy r).1 := by
  unfold Store.Write Store.writeStream
  cases hopen : s.openFileForWriting fs id key with
  | error e => left; rfl
  | ok fs1 =>
    right
    have hat := openFileForWriting_at s fs fs1 id key hopen
    have hfs := openFileForWriting_ok s fs fs1 id key hopen
    have : fileAppend fs1 (s.fullPathWithRoot id key) (ioCopy r).1 =
        fsAfterWrite fs (s.Root ++ "/" ++ id ++ "/" ++ (s.PathTransformFunc key).PathName)
          (s.fullPathWithRoot id key) (ioCopy r).1 := by
      funext q
      by_cases hq : q = s.fullPathWithRoot id key
      · simp [fileAppend, fsAfterWrite, hq, hat]
      · simp only [fileAppend, fsAfterWrite, hq, if_false]
        rw [hfs]
        simp [hq]
    simp only
    cases hc : (ioCopy r).2 with
    | none => simpa [hc] using this
    | some e => simpa [hc] using this

theorem dir_mem_ancestors_full (s : Store) (id key : String) :
    s.Root ++ "/" ++ id ++ "/" ++ (s.PathTransformFunc key).PathName ∈
      pathAncestors (s.fullPathWithRoot id key) := by
  rw [mem_pathAncestors]
  refine ⟨by simp [String.data_append], (s.PathTransformFunc key).Filename.data, ?_⟩
  simp [Store.fullPathWithRoot, PathKey.FullPath, String.data_append]

/-- Two names without a separator that start the same text up to a separator are equal. -/
theorem sepfree_eq (a b u v : List Char) (ha : '/' ∉ a) (hb : '/' ∉ b)
    (h : a ++ '/' :: u = b ++ '/' :: v) : a = b := by
  induction a generalizing b with
  | nil =>
    cases b with
    | nil => rfl
    | cons c cs =>
      simp only [List.nil_append, List.cons_append, List.cons.injEq] at h
      exact absurd (h.1 ▸ List.mem_cons_self _ _) hb
  | cons x xs ih =>
    cases b with
    | nil =>
      simp only [List.nil_append, List.cons_append, List.cons.injEq] at h
      exact absurd (h.1 ▸ List.mem_cons_self _ _) ha
    | cons c cs =>
      simp only [List.cons_append, List.cons.injEq] at h
      rw [h.1, ih cs (fun hm => ha (List.mem_cons_of_mem _ hm))
        (fun hm => hb (List.mem_cons_of_mem _ hm)) h.2]

/-- Objects of owners with different names (without separators) are on unrelated paths. -/
theorem owners_apart (s : Store) (a b ka kb : String) (hab : a ≠ b)
    (ha : '/' ∉ a.data) (hb : '/' ∉ b.data) :
    s.fullPathWithRoot b kb ≠ s.fullPathWithRoot a ka ∧
    s.fullPathWithRoot b kb ∉ pathAncestors (s.fullPathWithRoot a ka) ∧
    s.fullPathWithRoot a ka ∉ pathAncestors (s.fullPathWithRoot b kb) := by
  have key : ∀ (x y : String) (kx ky : String) (rest : List Char), '/' ∉ x.data → '/' ∉ y.data →
      (s.fullPathWithRoot x kx).data = (s.fullPathWithRoot y ky).data ++ rest → x = y := by
    intro x y kx ky rest hx hy h
    simp only [Store.fullPathWithRoot, String.data_append, List.append_assoc] at h
    have h' := List.append_cancel_left h
    simp only [List.singleton_append, List.cons.injEq, true_and] at h'
    apply String.ext
    exact sepfree_eq _ _ _ _ hx hy h'
  refine ⟨?_, ?_, ?_⟩
  · intro e
    exact hab (key b a kb ka [] hb ha (by rw [e]; simp)).symm
  · rw [mem_pathAncestors]
    rintro ⟨_, rest, e⟩
    exact hab (key a b ka kb ('/' :: rest) ha hb e)
  · rw [mem_pathAncestors]
    rintro ⟨_, rest, e⟩
    exact hab (key b a kb ka ('/' :: rest) hb ha e).symm

theorem has_of_file (s : Store) (fs : FS) (id key : String) (n : Node)
    (h : fs (s.fullPathWithRoot id key) = some n) : s.Has fs id key = true := by
  unfold Store.Has osStat
  cases pathTooLong (s.fullPathWithRoot id key) <;> simp [h]

theorem handleMessageGetFile_ok (s : FileServer) (sender : String) (msg : MessageGetFile)
    (peer : Peer) (c : List Byte) (hpeer : s.peers.lookup sender = some peer)
    (hfile : s.fs (s.store.fullPathWithRoot msg.ID msg.Key) = some (Node.file c))
    (hfit : pathTooLong (s.store.fullPathWithRoot msg.ID msg.Key) = false) :
    s.handleMessageGetFile sender msg =
      (none, s.setPeer sender { peer with outbox := peer.outbox ++
        ([[IncomingStream], int64ToLE c.length] ++ (if c = [] then [] else [c])) }) := by
  unfold FileServer.handleMessageGetFile
  rw [has_of_file _ _ _ _ _ hfile, read_of_file _ _ _ _ _ hfile hfit, hpeer]
  simp only [Bool.not_true, Bool.false_eq_true, if_false, ioCopy, bytesReader_data, if_true]
  by_cases hc : c = []
  · simp [hc, Peer.copyIn, Peer.Send, bytesReader]
  · simp [hc, Peer.copyIn, Peer.Send, bytesReader]

theorem store_fs (env : Env) (s : FileServer) (key : String) (r rnd : Reader) :
    (s.Store env key r rnd).2.fs = (s.store.Write s.fs s.ID key r).2 ∧
    (s.Store env key r rnd).2.store = s.store := by
  unfold FileServer.Store
  rcases hw : s.store.Write s.fs s.ID key r with ⟨res, fs1⟩
  cases res with
  | error e => exact ⟨rfl, rfl⟩
  | ok n =>
    simp only
    cases (copyEncrypt env s.EncKey rnd (bytesReader (ioCopy r).1)).result with
    | error e => exact ⟨rfl, rfl⟩
    | ok m => exact ⟨rfl, rfl⟩

/-- After `A` ran `Store key`, the request of `B` for `(B.ID, hashKey key)` is answered by
`A` with the error for an object that is not on disk. -/
theorem other_owner_not_served (env : Env) (A B : FileServer) (aB key : String) (r rnd : Reader)
    (hab : A.ID ≠ B.ID) (hA : '/' ∉ A.ID.data) (hB : '/' ∉ B.ID.data)
    (hfree : A.store.Has A.fs B.ID (hashKey key) = false) :
    (A.Store env key r rnd).2.handleMessage aB (B.getMessage key) =
      (some (GoError.notOnDisk (hashKey key)), (A.Store env key r rnd).2) := by
  have hfs := store_fs env A key r rnd
  have hhas : (A.Store env key r rnd).2.store.Has (A.Store env key r rnd).2.fs B.ID (hashKey key)
      = false := by
    rw [hfs.1, hfs.2]
    rcases write_fs A.store A.fs A.ID key r with h | h
    · rw [h]; exact hfree
    · rw [h]
      obtain ⟨h1, h2, h3⟩ := owners_apart A.store A.ID B.ID key (hashKey key) hab hA hB
      exact has_frame A.store A.fs _ _ _ B.ID (hashKey key)
        (dir_mem_ancestors_full A.store A.ID key) h1 h2 h3 hfree
  simp only [FileServer.handleMessage, FileServer.getMessage, FileServer.handleMessageGetFile,
    hhas]
  rfl

theorem cas_pathName_length (key : String) : (CASPathTransformFunc key).PathName.length = 47 := by
  have hseg := casSegments_seg_length key
  rw [cas_pathName]
  have e : List.range 8 = [0, 1, 2, 3, 4, 5, 6, 7] := by decide
  simp only [casSegments, e, List.map, List.mem_cons, List.mem_singleton, forall_eq_or_imp,
    List.not_mem_nil, false_implies, implies_true, and_true] at hseg ⊢
  obtain ⟨h0, h1, h2, h3, h4, h5, h6, h7⟩ := hseg
  simp only [stringsJoin, String.length_append, h0, h1, h2, h3, h4, h5, h6, h7]
  rfl

theorem cas_filename_length (key : String) : (CASPathTransformFunc key).Filename.length = 40 :=
  sha1Hex_length key

/-- With the content-addressed transform, the objects of one owner for keys with different
digests are on unrelated paths. -/
theorem cas_keys_apart (s : Store) (hcas : s.PathTransformFunc = CASPathTransformFunc)
    (id k1 k2 : String)
    (hne : (CASPathTransformFunc k1).Filename ≠ (CASPathTransformFunc k2).Filename) :
    s.fullPathWithRoot id k1 ≠ s.fullPathWithRoot id k2 ∧
    s.fullPathWithRoot id k1 ∉ pathAncestors (s.fullPathWithRoot id k2) ∧
    s.fullPathWithRoot id k2 ∉ pathAncestors (s.fullPathWithRoot id k1) := by
  have hlen : ∀ k, (s.fullPathWithRoot id k).data.length =
      s.Root.data.length + 1 + id.data.length + 1 + 88 := by
    intro k
    have h1 := cas_pathName_length k
    have h2 := cas_filename_length k
    simp only [String.length] at h1 h2
    simp only [Store.fullPathWithRoot, PathKey.FullPath, hcas, String.data_append,
      List.length_append, h1, h2]
    have hsep : ("/" : String).data.length = 1 := rfl
    rw [hsep]
  have hshort : ∀ a b, s.fullPathWithRoot id a ∉ pathAncestors (s.fullPathWithRoot id b) := by
    intro a b
    rw [mem_pathAncestors]
    rintro ⟨_, rest, e⟩
    have := congrArg List.length e
    rw [hlen, List.length_append, hlen] at this
    simp at this
  refine ⟨?_, hshort k1 k2, hshort k2 k1⟩
  intro e
  apply hne
  have e' := congrArg String.data e
  simp only [Store.fullPathWithRoot, PathKey.FullPath, hcas, String.data_append,
    ← List.append_assoc] at e'
  have h2 : (CASPathTransformFunc k1).Filename.data.length =
      (CASPathTransformFunc k2).Filename.data.length := by
    have a1 := cas_filename_length k1
    have a2 := cas_filename_length k2
    simp only [String.length] at a1 a2
    rw [a1, a2]
  exact String.ext (List.append_inj' e' h2).2

/-- What `handleMessageStoreFile` leaves behind for the announcement of a `Store`. -/
theorem handle_store_announcement (env : Env) (S P : FileServer) (key aS : String)
    (r rnd : Reader) (peer : Peer) (later : List (List Byte)) (fsP : FS)
    (hk : S.EncKey.length = 32) (hr : 16 ≤ rnd.data.length) (hfin : r.final = GoError.EOF)
    (hpeer : P.peers.lookup aS = some peer)
    (hin : peer.inbox = deliver { chunks := [] } (S.storeStream env r rnd ++ later))
    (hPopen : P.store.openFileForWriting P.fs S.ID (hashKey key) = Except.ok fsP) :
    P.handleMessage aS (S.storeMessage key r.data.length) =
      (none,
        { P with fs := fun q => if q = P.store.fullPathWithRoot S.ID (hashKey key)
            then some (Node.file (S.storeStream env r rnd).flatten) else fsP q }.setPeer aS
          { peer with inbox := peer.inbox.advance (r.data.length + 16) }) := by
  have hlen := storeStream_length env S r rnd hk hr hfin
  have hnat : ((r.data.length : Int) + 16).toNat = r.data.length + 16 := by omega
  have hdata : peer.inbox.data = (S.storeStream env r rnd).flatten ++ later.flatten := by
    rw [hin, deliver_data]
    simp [Reader.data]
  have hsize : ((r.data.length : Int) + 16).toNat ≤ peer.inbox.data.length := by
    rw [hnat, hdata, List.length_append, hlen]
    omega
  have hh := handleMessageStoreFile_ok P aS
    { ID := S.ID, Key := hashKey key, Size := (r.data.length : Int) + 16 } peer fsP hpeer hPopen hsize
  have htake : peer.inbox.data.take ((r.data.length : Int) + 16).toNat =
      (S.storeStream env r rnd).flatten := by
    rw [hnat, hdata, ← hlen, List.take_left']
    rfl
  simp only [FileServer.handleMessage, FileServer.storeMessage]
  rw [hh]
  rw [hnat] at htake
  simp only [hnat, htake]

/-- C9: for every key, after the recipient's `handleMessageStoreFile` (content-addressed
transform) handled the announcement of the sender's `Store key`, the object is on the
recipient's disk under the sender's id, in the directories of
`CASPathTransformFunc (hashKey key)` with the file name `sha1_hex(md5_hex(key))`. Nothing
is put where `sha1_hex(key)` would place it whenever the two digests differ, as they do
for `photo.png`. -/
theorem remote_store_filename (env : Env) (S P : FileServer) (key aS : String)
    (r rnd : Reader) (peer : Peer) (later : List (List Byte))
    (hcas : P.store.PathTransformFunc = CASPathTransformFunc)
    (hk : S.EncKey.length = 32) (hr : 16 ≤ rnd.data.length) (hfin : r.final = GoError.EOF)
    (hpeer : P.peers.lookup aS = some peer)
    (hin : peer.inbox = deliver { chunks := [] } (S.storeStream env r rnd ++ later))
    (hPopen : (P.store.openFileForWriting P.fs S.ID (hashKey key)).isOk = true)
    (hfree : P.store.Has P.fs S.ID key = false) :
    (P.handleMessage aS (S.storeMessage key r.data.length)).1 = none ∧
    (P.handleMessage aS (S.storeMessage key r.data.length)).2.fs
        (P.store.Root ++ "/" ++ S.ID ++ "/" ++
          stringsJoin (casSegments (hashKey key)) "/" ++ "/" ++
          hexEncodeToString (sha1Sum (stringBytes (hexEncodeToString (md5Sum (stringBytes key))))))
      = some (Node.file (S.storeStream env r rnd).flatten) ∧
    (CASPathTransformFunc (hashKey key)).Filename =
      hexEncodeToString (sha1Sum (stringBytes (hexEncodeToString (md5Sum (stringBytes key))))) ∧
    ((CASPathTransformFunc (hashKey key)).Filename ≠ (CASPathTransformFunc key).Filename →
      (P.handleMessage aS (S.storeMessage key r.data.length)).2.store.Has
        (P.handleMessage aS (S.storeMessage key r.data.length)).2.fs S.ID key = false) ∧
    (CASPathTransformFunc (hashKey "photo.png")).Filename ≠
      (CASPathTransformFunc "photo.png").Filename := by
  obtain ⟨fsP, hPopen⟩ := (isOk_iff _).1 hPopen
  have hh := handle_store_announcement env S P key aS r rnd peer later fsP hk hr hfin hpeer hin
    hPopen
  have hpath : P.store.Root ++ "/" ++ S.ID ++ "/" ++
      stringsJoin (casSegments (hashKey key)) "/" ++ "/" ++
      hexEncodeToString (sha1Sum (stringBytes (hexEncodeToString (md5Sum (stringBytes key))))) =
      P.store.fullPathWithRoot S.ID (hashKey key) := by
    rw [fullPathWithRoot_eq, hcas, cas_pathName]
    rfl
  rw [hh, hpath]
  refine ⟨rfl, ?_, rfl, ?_, by decide!⟩
  · simp [FileServer.setPeer]
  · intro hne
    have hw : (fun q => if q = P.store.fullPathWithRoot S.ID (hashKey key)
        then some (Node.file (S.storeStream env r rnd).flatten) else fsP q) =
        fsAfterWrite P.fs
          (P.store.Root ++ "/" ++ S.ID ++ "/" ++ (P.store.PathTransformFunc (hashKey key)).PathName)
          (P.store.fullPathWithRoot S.ID (hashKey key)) (S.storeStream env r rnd).flatten := by
      funext q
      rw [openFileForWriting_ok _ _ _ _ _ hPopen]
      by_cases hq : q = P.store.fullPathWithRoot S.ID (hashKey key)
      · simp [fsAfterWrite, hq]
      · simp [fsAfterWrite, hq]
    obtain ⟨h1, h2, h3⟩ := cas_keys_apart P.store hcas S.ID key (hashKey key) (Ne.symm hne)
    simp only [FileServer.setPeer]
    rw [hw]
    exact has_frame P.store P.fs _ _ _ S.ID key (dir_mem_ancestors_full P.store S.ID (hashKey key))
      h1 h2 h3 hfree

/-! ## Requests, answers, and the run of store, delete and get -/

/-- C1, counterexample: after node `s3` ran `Store("pic", "DATA")`, the `GetRequest` that the
`Get("pic")` of the connected node `s1` broadcasts (owner `s1`, key `hashKey "pic"`) is
answered by the `handleMessageGetFile` of `s3` with the error for an object that does not
exist on disk. -/
theorem foreign_get_request_not_served :
    ((sampleSender.Store Env.sample "pic" (bytesReader (stringBytes "DATA")) sampleRand).2.handleMessage
      ":3000" (sampleReceiver.getMessage "pic")).1 = some (GoError.notOnDisk (hashKey "pic")) := by
  decide!

theorem outboxTo_setPeer (s : FileServer) (a : String) (p q : Peer)
    (h : s.peers.lookup a = some p) : (s.setPeer a q).outboxTo a = q.outbox := by
  simp [FileServer.outboxTo, lookup_setPeer s a p q h]

/-- The peer that handled the announcement of a `Store` serves the owner's request. -/
theorem holder_serves (env : Env) (S P : FileServer) (key aS : String)
    (r rnd : Reader) (peer : Peer) (later : List (List Byte)) (fsP : FS)
    (hk : S.EncKey.length = 32) (hr : 16 ≤ rnd.data.length) (hfin : r.final = GoError.EOF)
    (hpeer : P.peers.lookup aS = some peer)
    (hin : peer.inbox = deliver { chunks := [] } (S.storeStream env r rnd ++ later))
    (hPopen : P.store.openFileForWriting P.fs S.ID (hashKey key) = Except.ok fsP) :
    ((P.handleMessage aS (S.storeMessage key r.data.length)).2.handleMessage aS
        (S.getMessage key)).1 = none ∧
    ((P.handleMessage aS (S.storeMessage key r.data.length)).2.handleMessage aS
        (S.getMessage key)).2.outboxTo aS =
      peer.outbox ++ [[IncomingStream], int64ToLE ((r.data.length + 16 : Nat) : Int),
        (S.storeStream env r rnd).flatten] := by
  have hh := handle_store_announcement env S P key aS r rnd peer later fsP hk hr hfin hpeer hin
    hPopen
  have hlen := storeStream_length env S r rnd hk hr hfin
  have hne : (S.storeStream env r rnd).flatten ≠ [] := by
    intro e
    rw [e] at hlen
    simp at hlen
  rw [hh]
  simp only [FileServer.handleMessage, FileServer.getMessage]
  have hl := lookup_setPeer
    { P with fs := fun q => if q = P.store.fullPathWithRoot S.ID (hashKey key)
        then some (Node.file (S.storeStream env r rnd).flatten) else fsP q } aS peer
    { peer with inbox := peer.inbox.advance (r.data.length + 16) } hpeer
  have hg := handleMessageGetFile_ok _ aS { ID := S.ID, Key := hashKey key } _
    (S.storeStream env r rnd).flatten hl (by simp [FileServer.setPeer])
    (by simpa [FileServer.setPeer] using openFileForWriting_fits _ _ _ _ _ hPopen)
  rw [hg]
  refine ⟨rfl, ?_⟩
  rw [outboxTo_setPeer _ _ _ _ hl]
  simp [hne, hlen]

theorem decode_two_reads (B : List Byte) (rest : List (List Byte)) (final : GoError)
    (hlen : B.length ≤ 1028) :
    DefaultDecoder.Decode { chunks := [0x1] :: B :: rest, final := final } {} =
      (none, { Stream := false, Payload := B }, { chunks := rest, final := final }) := by
  simp only [DefaultDecoder.Decode, reader_read_one, if_true]
  simp [Reader.Read, IncomingStream, hlen]

theorem decode_marker (rest : List (List Byte)) (final : GoError) :
    DefaultDecoder.Decode { chunks := [0x2] :: rest, final := final } {} =
      (none, { Stream := true, Payload := [] }, { chunks := rest, final := final }) := by
  simp only [DefaultDecoder.Decode, reader_read_one]
  simp [IncomingStream]

theorem afterFrames_announcement (g : List Byte) (stream : List (List Byte))
    (hg : 0 < g.length) (hlen : g.length ≤ 1028) :
    afterFrames 2 (deliver { chunks := [] }
        ([[IncomingMessage], g, [IncomingStream]] ++ stream)) =
      deliver { chunks := [] } stream := by
  have hgne : g ≠ [] := List.length_pos.1 hg
  have h1 : deliver { chunks := [] } ([[IncomingMessage], g, [IncomingStream]] ++ stream) =
      { chunks := [0x1] :: g :: [0x2] :: stream.filter (fun c => !decide (c = [])),
        final := GoError.EOF } := by
    simp [deliver, IncomingMessage, IncomingStream, List.filter_cons, hgne]
  rw [h1]
  simp only [afterFrames, decode_two_reads g _ _ hlen, decode_marker]
  simp [deliver]

theorem afterFrames_answer (sz c : List Byte) (hsz : sz ≠ []) (hc : c ≠ []) :
    afterFrames 1 (deliver { chunks := [] } [[IncomingStream], sz, c]) =
      { chunks := [sz, c], final := GoError.EOF } := by
  have h1 : deliver { chunks := [] } [[IncomingStream], sz, c] =
      { chunks := [0x2] :: [sz, c], final := GoError.EOF } := by
    simp [deliver, IncomingStream, List.filter_cons, hsz, hc]
  rw [h1]
  simp only [afterFrames, decode_marker]

/-- Opening an object for writing succeeds when no regular file is in the place of one of
its directories, no directory in its own place, its file name holds no separator and its
path is not too long. -/
theorem openFileForWriting_succeeds (s : Store) (fs : FS) (id key : String)
    (hf : '/' ∉ (s.PathTransformFunc key).Filename.data)
    (hnofile : ∀ a, a = s.Root ++ "/" ++ id ++ "/" ++ (s.PathTransformFunc key).PathName ∨
        a ∈ pathAncestors (s.Root ++ "/" ++ id ++ "/" ++ (s.PathTransformFunc key).PathName) →
      Node.isFile (fs a) = false)
    (hnodir : Node.isDir (fs (s.fullPathWithRoot id key)) = false)
    (hfit : pathTooLong (s.fullPathWithRoot id key) = false) :
    s.openFileForWriting fs id key = Except.ok (fun q =>
      if q = s.fullPathWithRoot id key then some (Node.file [])
      else if q = s.Root ++ "/" ++ id ++ "/" ++ (s.PathTransformFunc key).PathName ∨
          q ∈ pathAncestors (s.Root ++ "/" ++ id ++ "/" ++ (s.PathTransformFunc key).PathName)
        then some Node.dir
      else fs q) := by
  have hxne : (s.Root ++ "/" ++ id ++ "/" ++ (s.PathTransformFunc key).PathName).data ≠ [] := by
    simp [String.data_append]
  have hchild := fun a => mem_pathAncestors_child a
    (s.Root ++ "/" ++ id ++ "/" ++ (s.PathTransformFunc key).PathName)
    (s.PathTransformFunc key).Filename hxne hf
  have hH := fullPathWithRoot_eq s id key
  have hHx : s.fullPathWithRoot id key ≠
      s.Root ++ "/" ++ id ++ "/" ++ (s.PathTransformFunc key).PathName := by
    intro e
    have := dir_mem_ancestors_full s id key
    rw [e] at this
    exact not_mem_pathAncestors_self _ this
  have hHanc : s.fullPathWithRoot id key ∉
      pathAncestors (s.Root ++ "/" ++ id ++ "/" ++ (s.PathTransformFunc key).PathName) := by
    intro e
    exact not_mem_pathAncestors_self _
      (pathAncestors_trans _ _ _ e (dir_mem_ancestors_full s id key))
  have hmk : osMkdirAll fs (s.Root ++ "/" ++ id ++ "/" ++ (s.PathTransformFunc key).PathName) =
      Except.ok (fun q =>
        if q = s.Root ++ "/" ++ id ++ "/" ++ (s.PathTransformFunc key).PathName ∨
          q ∈ pathAncestors (s.Root ++ "/" ++ id ++ "/" ++ (s.PathTransformFunc key).PathName)
        then some Node.dir else fs q) := by
    unfold osMkdirAll
    rw [if_neg (by
      rw [pathTooLong_ancestor _ _ (dir_mem_ancestors_full s id key) hfit]
      simp), if_neg]
    simp only [List.any_eq_true, List.mem_append, List.mem_singleton, not_exists, not_and,
      Bool.not_eq_true]
    intro a ha
    exact hnofile a ha.symm
  unfold Store.openFileForWriting
  simp only [hmk]
  unfold osCreate
  rw [if_neg (by rw [hfit]; simp), if_neg, if_neg, if_neg]
  · simp only [hHx, hHanc, or_self, if_false]
    simpa using hnodir
  · simp only [List.any_eq_true, not_exists, not_and, Bool.not_eq_true, Bool.not_eq_true',
      Bool.not_eq_false]
    intro a ha
    rw [hH, hchild] at ha
    have : a = s.Root ++ "/" ++ id ++ "/" ++ (s.PathTransformFunc key).PathName ∨
        a ∈ pathAncestors (s.Root ++ "/" ++ id ++ "/" ++ (s.PathTransformFunc key).PathName) :=
      ha.symm
    simp [this, Node.isDir]
  · simp only [List.any_eq_true, not_exists, not_and, Bool.not_eq_true]
    intro a ha
    rw [hH, hchild] at ha
    have : a = s.Root ++ "/" ++ id ++ "/" ++ (s.PathTransformFunc key).PathName ∨
        a ∈ pathAncestors (s.Root ++ "/" ++ id ++ "/" ++ (s.PathTransformFunc key).PathName) :=
      ha.symm
    simp [this, Node.isFile]

theorem binaryReadInt64_answer (n : Nat) (c : List Byte) (hn : n < 2 ^ 63) :
    binaryReadInt64 { chunks := [int64ToLE (n : Int), c], final := GoError.EOF } =
      (Except.ok (n : Int), { chunks := [c], final := GoError.EOF }) := by
  have h8 := int64ToLE_length (n : Int)
  have hdata : (Reader.mk [int64ToLE (n : Int), c] GoError.EOF).data = int64ToLE (n : Int) ++ c := by
    simp [Reader.data]
  unfold binaryReadInt64
  rw [if_pos (by rw [hdata, List.length_append, h8]; omega)]
  have htake : (int64ToLE (n : Int) ++ c).take 8 = int64ToLE (n : Int) := by
    rw [← h8, List.take_left']
    rfl
  simp only [hdata, htake, int64_roundtrip n hn]
  simp [dropChunks, h8]

theorem limitReader_whole (c : List Byte) (hc : c ≠ []) :
    limitReader { chunks := [c], final := GoError.EOF } ((c.length : Nat) : Int) = bytesReader c := by
  have hpos : 0 < c.length := List.length_pos.2 hc
  simp only [limitReader, Int.toNat_ofNat, limitChunks, bytesReader, hc, if_false]
  have h0 : c.length ≠ 0 := by omega
  simp [h0, Reader.data]

theorem writeDecrypt_ok (env : Env) (s : Store) (fs fs3 : FS) (encKey : List Byte)
    (id key : String) (iv ct : List Byte) (hk : encKey.length = 32) (hiv : iv.length = 16)
    (hopen : s.openFileForWriting fs id key = Except.ok fs3) :
    (s.WriteDecrypt env fs encKey id key (bytesReader (iv ++ ct))).1 = Except.ok (16 + ct.length) ∧
    (s.WriteDecrypt env fs encKey id key (bytesReader (iv ++ ct))).2.1 =
      (fun q => if q = s.fullPathWithRoot id key then some (Node.file (ctrXor env encKey iv 0 ct))
        else fs3 q) := by
  have hd := copyDecrypt_buffer env encKey hk iv ct hiv
  have hat := openFileForWriting_at s fs fs3 id key hopen
  unfold Store.WriteDecrypt
  rw [hopen]
  simp only
  refine ⟨hd.1, ?_⟩
  rw [hd.2]
  funext q
  by_cases hq : q = s.fullPathWithRoot id key
  · simp [fileAppend, hq, hat]
  · simp [fileAppend, hq]

theorem receiveFrom_ok (env : Env) (s : FileServer) (key addr : String) (peer : Peer)
    (fs3 : FS) (iv ct : List Byte) (hk : s.EncKey.length = 32) (hiv : iv.length = 16)
    (hlt : (iv ++ ct).length < 2 ^ 63)
    (hin : peer.inbox =
      { chunks := [int64ToLE ((iv ++ ct).length : Nat), iv ++ ct], final := GoError.EOF })
    (hopen : s.store.openFileForWriting s.fs s.ID key = Except.ok fs3) :
    (s.receiveFrom env key addr peer).1 = none ∧
    (s.receiveFrom env key addr peer).2.fs =
      (fun q => if q = s.store.fullPathWithRoot s.ID key
        then some (Node.file (ctrXor env s.EncKey iv 0 ct)) else fs3 q) ∧
    (s.receiveFrom env key addr peer).2.store = s.store ∧
    (s.receiveFrom env key addr peer).2.ID = s.ID := by
  have hne : iv ++ ct ≠ [] := by
    intro h
    have := congrArg List.length h
    simp [hiv] at this
  have hw := writeDecrypt_ok env s.store s.fs fs3 s.EncKey s.ID key iv ct hk hiv hopen
  unfold FileServer.receiveFrom
  rw [hin, binaryReadInt64_answer _ _ hlt]
  simp only [limitReader_whole _ hne]
  rcases hwd : s.store.WriteDecrypt env s.fs s.EncKey s.ID key (bytesReader (iv ++ ct)) with
    ⟨res, fs4, rd⟩
  rw [hwd] at hw
  simp only at hw
  obtain ⟨h1, h2⟩ := hw
  subst h1
  subst h2
  exact ⟨rfl, rfl, rfl, rfl⟩

theorem get_from_peer (env : Env) (s : FileServer) (key aP : String) (p0 : Peer)
    (during : FileServer → FileServer) (fs3 : FS) (iv ct : List Byte)
    (hk : s.EncKey.length = 32) (hiv : iv.length = 16) (hlt : (iv ++ ct).length < 2 ^ 63)
    (hpeers : s.peers = [(aP, p0)])
    (hhas : s.store.Has s.fs s.ID key = false)
    (hduring : during (FileServer.broadcast env s (s.getMessage key)) =
      (FileServer.broadcast env s (s.getMessage key)).withInbox aP
        { chunks := [int64ToLE ((iv ++ ct).length : Nat), iv ++ ct], final := GoError.EOF })
    (hopen : s.store.openFileForWriting s.fs s.ID key = Except.ok fs3) :
    (s.Get env key during).1 = Except.ok (bytesReader (ctrXor env s.EncKey iv 0 ct)) ∧
    (s.Get env key during).2.fs (s.store.fullPathWithRoot s.ID key) =
      some (Node.file (ctrXor env s.EncKey iv 0 ct)) ∧
    (s.Get env key during).2.store = s.store ∧ (s.Get env key during).2.ID = s.ID := by
  have hb : (FileServer.broadcast env s (s.getMessage key)).withInbox aP
      { chunks := [int64ToLE ((iv ++ ct).length : Nat), iv ++ ct], final := GoError.EOF } =
      { s with peers := [(aP,
        { inbox := { chunks := [int64ToLE ((iv ++ ct).length : Nat), iv ++ ct],
                     final := GoError.EOF }
          outbox := p0.outbox ++ [[IncomingMessage], env.gobEncode (s.getMessage key)] })] } := by
    simp [FileServer.withInbox, FileServer.broadcast, FileServer.mapPeers, hpeers, Peer.Send]
  have hr := receiveFrom_ok env
    { s with peers := [(aP,
        { inbox := { chunks := [int64ToLE ((iv ++ ct).length : Nat), iv ++ ct],
                     final := GoError.EOF }
          outbox := p0.outbox ++ [[IncomingMessage], env.gobEncode (s.getMessage key)] })] }
    key aP
    { inbox := { chunks := [int64ToLE ((iv ++ ct).length : Nat), iv ++ ct], final := GoError.EOF }
      outbox := p0.outbox ++ [[IncomingMessage], env.gobEncode (s.getMessage key)] }
    fs3 iv ct hk hiv hlt rfl hopen
  unfold FileServer.Get
  rw [hhas]
  simp only [Bool.false_eq_true, if_false, hduring, hb, List.map_cons, List.map_nil,
    FileServer.receiveAll, List.lookup, beq_self_eq_true]
  rcases hrf : FileServer.receiveFrom env
    { s with peers := [(aP,
        { inbox := { chunks := [int64ToLE ((iv ++ ct).length : Nat), iv ++ ct],
                     final := GoError.EOF }
          outbox := p0.outbox ++ [[IncomingMessage], env.gobEncode (s.getMessage key)] })] }
    key aP
    { inbox := { chunks := [int64ToLE ((iv ++ ct).length : Nat), iv ++ ct], final := GoError.EOF }
      outbox := p0.outbox ++ [[IncomingMessage], env.gobEncode (s.getMessage key)] } with ⟨e, s3⟩
  rw [hrf] at hr
  simp only at hr
  obtain ⟨h1, h2, h3, h4⟩ := hr
  subst h1
  have hfile : s3.fs (s3.store.fullPathWithRoot s3.ID key) =
      some (Node.file (ctrXor env s.EncKey iv 0 ct)) := by
    rw [h2, h3, h4]
    simp
  have hfit : pathTooLong (s3.store.fullPathWithRoot s3.ID key) = false := by
    rw [h3, h4]
    exact openFileForWriting_fits _ _ _ _ _ hopen
  simp only [FileServer.receiveAll, read_of_file _ _ _ _ _ hfile hfit]
  refine ⟨trivial, ?_, h3, h4⟩
  rw [← h3, ← h4]
  exact hfile

/-- The first segment of a content-addressed path has five characters. -/
theorem cas_firstPathName_length (key : String) :
    (CASPathTransformFunc key).FirstPathName.length = 5 := by
  have hsplit : stringsSplit (CASPathTransformFunc key).PathName '/' = casSegments key := by
    rw [cas_pathName]
    exact stringsSplit_stringsJoin _ (casSegments_ne_nil key) (casSegments_no_sep key)
  have hlen := casSegments_seg_length key
  have h8 := casSegments_length key
  cases hseg : casSegments key with
  | nil => rw [hseg] at h8; simp at h8
  | cons a rest =>
    rw [hseg] at hlen
    simp only [PathKey.FirstPathName, hsplit, hseg, List.length_cons, List.headD_cons]
    simpa using hlen a (by simp)

/-- A name of five characters is not empty, `.` or `..`. -/
theorem name_of_length_five (f : String) (h : f.length = 5) : f ≠ "" ∧ f ≠ "." ∧ f ≠ ".." := by
  refine ⟨?_, ?_, ?_⟩ <;>
  · intro e
    rw [e] at h
    revert h
    decide

theorem delete_dir_eq_or_mem (s : Store) (id key : String) :
    s.Root ++ "/" ++ id ++ "/" ++ (s.PathTransformFunc key).FirstPathName =
        s.Root ++ "/" ++ id ++ "/" ++ (s.PathTransformFunc key).PathName ∨
    s.Root ++ "/" ++ id ++ "/" ++ (s.PathTransformFunc key).FirstPathName ∈
      pathAncestors (s.Root ++ "/" ++ id ++ "/" ++ (s.PathTransformFunc key).PathName) := by
  rcases firstPathName_spec (s.PathTransformFunc key) with h | ⟨rest, h⟩
  · left
    apply String.ext
    simp [String.data_append, h]
  · right
    rw [mem_pathAncestors]
    exact ⟨by simp [String.data_append], rest, by simp [String.data_append, h]⟩

/-- The directories on the way to an object are directories once it was written. -/
theorem fsAfterWrite_dirs (s : Store) (fs : FS) (id key : String) (c : List Byte) (a : String)
    (ha : a = s.Root ++ "/" ++ id ++ "/" ++ (s.PathTransformFunc key).PathName ∨
      a ∈ pathAncestors (s.Root ++ "/" ++ id ++ "/" ++ (s.PathTransformFunc key).PathName)) :
    fsAfterWrite fs (s.Root ++ "/" ++ id ++ "/" ++ (s.PathTransformFunc key).PathName)
      (s.fullPathWithRoot id key) c a = some Node.dir := by
  have hne : a ≠ s.fullPathWithRoot id key := by
    rintro rfl
    rcases ha with e | e
    · have := dir_mem_ancestors_full s id key
      rw [← e] at this
      exact not_mem_pathAncestors_self _ this
    · exact not_mem_pathAncestors_self _
        (pathAncestors_trans _ _ _ e (dir_mem_ancestors_full s id key))
  simp [fsAfterWrite, hne, ha]

theorem delete_after_write (s : Store) (fs : FS) (id key : String) (c : List Byte)
    (hfirst : (s.PathTransformFunc key).FirstPathName ≠ "" ∧
      (s.PathTransformFunc key).FirstPathName ≠ "." ∧
      (s.PathTransformFunc key).FirstPathName ≠ "..")
    (hfit : pathTooLong (s.fullPathWithRoot id key) = false) :
    s.Delete (fsAfterWrite fs (s.Root ++ "/" ++ id ++ "/" ++ (s.PathTransformFunc key).PathName)
        (s.fullPathWithRoot id key) c) id key =
      Except.ok ((fsAfterWrite fs
          (s.Root ++ "/" ++ id ++ "/" ++ (s.PathTransformFunc key).PathName)
          (s.fullPathWithRoot id key) c).without
        (s.Root ++ "/" ++ id ++ "/" ++ (s.PathTransformFunc key).FirstPathName)) := by
  unfold Store.Delete
  apply osRemoveAll_child _ (s.Root ++ "/" ++ id) _ (firstPathName_no_sep _) hfirst.1 hfirst.2.1
    hfirst.2.2 (pathTooLong_ancestor _ _ (delete_dir_mem_ancestors s id key) hfit)
  intro a ha
  have hax : a ∈ pathAncestors
      (s.Root ++ "/" ++ id ++ "/" ++ (s.PathTransformFunc key).PathName) := by
    rcases delete_dir_eq_or_mem s id key with e | e
    · rw [← e]; exact ha
    · exact pathAncestors_trans _ _ _ ha e
  rw [fsAfterWrite_dirs s fs id key c a (Or.inr hax)]
  rfl

theorem reopen_after_delete (s : Store) (fs : FS) (id key : String) (c : List Byte)
    (hf : '/' ∉ (s.PathTransformFunc key).Filename.data)
    (hfit : pathTooLong (s.fullPathWithRoot id key) = false) :
    (s.openFileForWriting ((fsAfterWrite fs
          (s.Root ++ "/" ++ id ++ "/" ++ (s.PathTransformFunc key).PathName)
          (s.fullPathWithRoot id key) c).without
        (s.Root ++ "/" ++ id ++ "/" ++ (s.PathTransformFunc key).FirstPathName)) id key).isOk
      = true := by
  rw [openFileForWriting_succeeds s _ id key hf]
  · rfl
  · intro a ha
    by_cases hd : a = s.Root ++ "/" ++ id ++ "/" ++ (s.PathTransformFunc key).FirstPathName ∨
        s.Root ++ "/" ++ id ++ "/" ++ (s.PathTransformFunc key).FirstPathName ∈ pathAncestors a
    · simp [FS.without, hd, Node.isFile]
    · simp only [FS.without, hd, if_false]
      rw [fsAfterWrite_dirs s fs id key c a ha]
      rfl
  · have := delete_dir_mem_ancestors s id key
    simp [FS.without, this, Node.isDir]
  · exact hfit

theorem store_fs_eq (env : Env) (s : FileServer) (key : String) (r rnd : Reader) (fs1 : FS)
    (hk : s.EncKey.length = 32) (hr : 16 ≤ rnd.data.length) (hfin : r.final = GoError.EOF)
    (hopen : s.store.openFileForWriting s.fs s.ID key = Except.ok fs1) :
    (s.Store env key r rnd).2.fs =
      fsAfterWrite s.fs (s.store.Root ++ "/" ++ s.ID ++ "/" ++ (s.store.PathTransformFunc key).PathName)
        (s.store.fullPathWithRoot s.ID key) r.data := by
  rw [(store_ok env s key r rnd fs1 hk hr hfin hopen).2.1]
  funext q
  rw [openFileForWriting_ok _ _ _ _ _ hopen]
  by_cases hq : q = s.store.fullPathWithRoot s.ID key
  · simp [fsAfterWrite, hq]
  · simp [fsAfterWrite, hq]

set_option maxHeartbeats 2000000 in
/-- C2: for every key, content `X` and 32-byte encryption key, with the content-addressed
transform at `S`: when `S` runs `Store key X` with the connected peer `P`, which stores the
announced stream, then deletes `(S.ID, key)` locally and runs `Get key`, the answer of
`P.handleMessageGetFile`, the 8-byte little-endian size and `S.store.WriteDecrypt` leave the
local object of `S` for `(S.ID, key)` equal to `X`, and the reader `Get` returns yields `X`. -/
theorem store_delete_get_roundtrip (env : Env) (S P : FileServer) (aS aP key : String)
    (r rnd : Reader)
    (hk : S.EncKey.length = 32) (hr : 16 ≤ rnd.data.length) (hfin : r.final = GoError.EOF)
    (hlt : r.data.length + 16 < 2 ^ 63)
    (hcas : S.store.PathTransformFunc = CASPathTransformFunc)
    (hSp : S.peers = [(aP, Peer.idle)]) (hPp : P.peers = [(aS, Peer.idle)])
    (hgob : 0 < (env.gobEncode (S.storeMessage key r.data.length)).length ∧
      (env.gobEncode (S.storeMessage key r.data.length)).length ≤ 1028)
    (hSopen : (S.store.openFileForWriting S.fs S.ID key).isOk = true)
    (hPopen : (P.store.openFileForWriting P.fs S.ID (hashKey key)).isOk = true) :
    (storeDeleteGet env S P aS aP key r rnd).1 = Except.ok (bytesReader r.data) ∧
    (storeDeleteGet env S P aS aP key r rnd).2.store.Read
      (storeDeleteGet env S P aS aP key r rnd).2.fs S.ID key =
        Except.ok (r.data.length, bytesReader r.data) := by
  obtain ⟨fsS, hSopen⟩ := (isOk_iff _).1 hSopen
  obtain ⟨fsP, hPopen⟩ := (isOk_iff _).1 hPopen
  have hs := store_ok env S key r rnd fsS hk hr hfin hSopen
  obtain ⟨_, _, hpeers, hstore, hid, hkey⟩ := hs
  have hfs := store_fs_eq env S key r rnd fsS hk hr hfin hSopen
  have hflat := storeStream_flatten env S r rnd hk hr hfin
  have hlen := storeStream_length env S r rnd hk hr hfin
  have hivlen : (rnd.data.take 16).length = 16 := by
    rw [List.length_take]; omega
  -- what `S` wrote to `P`
  have hout : (S.Store env key r rnd).2.outboxTo aP =
      [[IncomingMessage], env.gobEncode (S.storeMessage key r.data.length), [IncomingStream]] ++
        S.storeStream env r rnd := by
    simp [FileServer.outboxTo, hpeers, hSp, Peer.idle]
  -- `P` with the stream arrived
  have hP0 : P.withInbox aS (deliver { chunks := [] } (S.storeStream env r rnd)) =
      { P with peers := [(aS,
        { inbox := deliver { chunks := [] } (S.storeStream env r rnd ++ []), outbox := [] })] } := by
    simp [FileServer.withInbox, hPp, Peer.idle]
  have hserve := holder_serves env S
    { P with peers := [(aS,
        { inbox := deliver { chunks := [] } (S.storeStream env r rnd ++ []), outbox := [] })] }
    key aS r rnd
    { inbox := deliver { chunks := [] } (S.storeStream env r rnd ++ []), outbox := [] } [] fsP
    hk hr hfin (by simp [List.lookup]) rfl hPopen
  -- the local delete
  have hfit := openFileForWriting_fits _ _ _ _ _ hSopen
  have hdel := delete_after_write S.store S.fs S.ID key r.data
    (by rw [hcas]; exact name_of_length_five _ (cas_firstPathName_length key)) hfit
  -- the whole run
  unfold storeDeleteGet
  simp only [hout, afterFrames_announcement _ _ hgob.1 hgob.2, hP0, ioCopy_eof r hfin, hstore,
    hid, hfs, hdel]
  have hf : '/' ∉ (S.store.PathTransformFunc key).Filename.data := by
    rw [hcas]
    exact hexEncodeToString_no_sep _
  obtain ⟨fs3, hre⟩ := (isOk_iff _).1 (reopen_after_delete S.store S.fs S.ID key r.data hf hfit)
  have hcne : (S.storeStream env r rnd).flatten ≠ [] := by
    intro e
    rw [e] at hlen
    simp at hlen
  have hg := get_from_peer env
    { (S.Store env key r rnd).2 with fs := (FS.without (fsAfterWrite S.fs
          (S.store.Root ++ "/" ++ S.ID ++ "/" ++ (S.store.PathTransformFunc key).PathName)
          (S.store.fullPathWithRoot S.ID key) r.data)
        (S.store.Root ++ "/" ++ S.ID ++ "/" ++ (S.store.PathTransformFunc key).FirstPathName)) }
    key aP
    { inbox := Peer.idle.inbox, outbox := Peer.idle.outbox ++
        ([[IncomingMessage], env.gobEncode (S.storeMessage key r.data.length), [IncomingStream]] ++
          S.storeStream env r rnd) }
    (fun s => s.withInbox aP (afterFrames 1 (deliver { chunks := [] }
        (((FileServer.handleMessage
          { P with peers := [(aS,
            { inbox := deliver { chunks := [] } (S.storeStream env r rnd ++ []), outbox := [] })] }
          aS (S.storeMessage key r.data.length)).2.handleMessage aS (s.getMessage key)).2.outboxTo
            aS))))
    fs3 (rnd.data.take 16) (ctrXor env S.EncKey (rnd.data.take 16) 0 r.data)
    (by rw [hkey]; exact hk) hivlen
    (by rw [← hflat, hlen]; exact hlt)
    (by simp [hpeers, hSp])
    (by
      simp only [hstore, hid]
      unfold Store.Has
      rw [osRemoveAll_stat _ _ _ _ (by simpa [Store.Delete] using hdel)
        (delete_dir_mem_ancestors S.store S.ID key) hfit])
    (by
      have hserve2 := hserve.2
      simp only [FileServer.getMessage] at hserve2 ⊢
      simp only [FileServer.broadcast, FileServer.mapPeers, hid]
      rw [hserve2,
        List.nil_append, afterFrames_answer _ _ (by
          intro e
          have := int64ToLE_length ((r.data.length + 16 : Nat) : Int)
          rw [e] at this
          simp at this) hcne, ← hflat, hlen])
    (by simpa [hstore, hid] using hre)
  rw [hkey, ctrXor_ctrXor] at hg
  simp only [hstore, hid] at hg
  obtain ⟨hg1, hg2, hg3, _⟩ := hg
  refine ⟨hg1, ?_⟩
  rw [hg3]
  exact read_of_file _ _ _ _ _ hg2 hfit

/-- C1, amended: for every key and content and two connected nodes `A` and `B` with
different ids (without separators): after `A` ran `Store key` on a disk without an object
for `(B.ID, hashKey key)`, the `GetRequest` of `B` (owner `B.ID`, key `hashKey key`) is
answered by `A` with the error for an object that does not exist on disk, and nothing
changes at `A`. The request of the owner is served by the peer that handled the
announcement: after `B` handled the announcement of `A`, the `GetRequest` of `A` (owner
`A.ID`, key `hashKey key`) makes `B` find the object and write the stream marker, the
8-byte size `n + 16` and the `n + 16` stored bytes to `A`. -/
theorem get_request_served_by_holder (env : Env) (A B : FileServer) (aA aB key : String)
    (r rnd : Reader) (peer : Peer) (later : List (List Byte))
    (hab : A.ID ≠ B.ID) (hA : '/' ∉ A.ID.data) (hB : '/' ∉ B.ID.data)
    (hfree : A.store.Has A.fs B.ID (hashKey key) = false)
    (hk : A.EncKey.length = 32) (hr : 16 ≤ rnd.data.length) (hfin : r.final = GoError.EOF)
    (hpeer : B.peers.lookup aA = some peer)
    (hin : peer.inbox = deliver { chunks := [] } (A.storeStream env r rnd ++ later))
    (hBopen : (B.store.openFileForWriting B.fs A.ID (hashKey key)).isOk = true) :
    (A.Store env key r rnd).2.handleMessage aB (B.getMessage key) =
      (some (GoError.notOnDisk (hashKey key)), (A.Store env key r rnd).2) ∧
    ((B.handleMessage aA (A.storeMessage key r.data.length)).2.handleMessage aA
        (A.getMessage key)).1 = none ∧
    ((B.handleMessage aA (A.storeMessage key r.data.length)).2.handleMessage aA
        (A.getMessage key)).2.outboxTo aA =
      peer.outbox ++ [[IncomingStream], int64ToLE ((r.data.length + 16 : Nat) : Int),
        (A.storeStream env r rnd).flatten] := by
  obtain ⟨fsB, hBopen⟩ := (isOk_iff _).1 hBopen
  have h2 := holder_serves env A B key aA r rnd peer later fsB hk hr hfin hpeer hin hBopen
  exact ⟨other_owner_not_served env A B aB key r rnd hab hA hB hfree, h2.1, h2.2⟩

set_option maxRecDepth 100000 in
/-- C1, example: the request of `s1` at `s3`, and the request of `s3` at `s1`. -/
theorem get_request_served_by_holder_witness :
    ((sampleSender.Store Env.sample "picture_0.png" (bytesReader sampleData)
        sampleRand).2.handleMessage ":3000" (sampleReceiver.getMessage "picture_0.png")).1 =
      some (GoError.notOnDisk (hashKey "picture_0.png")) ∧
    ((sampleReceiver.handleMessage ":5000"
        (sampleSender.storeMessage "picture_0.png" 22)).2.handleMessage ":5000"
        (sampleSender.getMessage "picture_0.png")).2.outboxTo ":5000" =
      [[IncomingStream], int64ToLE 38,
        (sampleSender.storeStream Env.sample (bytesReader sampleData) sampleRand).flatten] :=
  have h := get_request_served_by_holder Env.sample sampleSender sampleReceiver ":5000" ":3000"
    "picture_0.png" (bytesReader sampleData) sampleRand
    { inbox := deliver { chunks := [] }
        (sampleSender.storeStream Env.sample (bytesReader sampleData) sampleRand ++ [])
      outbox := [] } []
    (by decide!) (by decide!) (by decide!) (by decide!) (by decide!) (by decide!) (by decide!)
    rfl rfl (by decide!)
  ⟨congrArg Prod.fst h.1, h.2.2⟩

set_option maxRecDepth 100000 in
/-- C2, example: the loop body of `main` for `picture_0.png` returns the 22 bytes stored. -/
theorem store_delete_get_roundtrip_witness :
    (storeDeleteGet Env.sample sampleSender sampleHolder ":5000" ":3000" "picture_0.png"
      (bytesReader sampleData) sampleRand).1 = Except.ok (bytesReader sampleData) :=
  (store_delete_get_roundtrip Env.sample sampleSender sampleHolder ":5000" ":3000"
    "picture_0.png" (bytesReader sampleData) sampleRand
    (by decide!) (by decide!) (by decide!) (by decide!) rfl rfl rfl (by decide!) (by decide!)
    (by decide!)).1

/-! ## Examples -/


/-- C3, example: the 22 bytes of `main` encrypt to 38 bytes and decrypt to themselves. -/
theorem encrypt_decrypt_roundtrip_witness :
    (copyEncrypt Env.sample sampleKey sampleRand (bytesReader sampleData)).written.flatten.length
      = 38 ∧
    (copyDecrypt Env.sample sampleKey (bytesReader
      (copyEncrypt Env.sample sampleKey sampleRand (bytesReader sampleData)).written.flatten)
      ).written.flatten = sampleData :=
  have h := encrypt_decrypt_roundtrip Env.sample sampleKey (by decide) sampleRand (by decide)
    (bytesReader sampleData) (by decide)
  ⟨h.2.1, h.2.2.2⟩

set_option maxHeartbeats 4000000 in
set_option maxRecDepth 100000 in
/-- C7, example: an object written with the content-addressed transform is there before
`Delete` and not after it. Under a root folder of 4015 bytes, where the directory to remove
has a path of 4024 bytes and the object a path of 4107 bytes, and with the default transform
for a key of 2047 bytes, where the object has a path of 4111 bytes, `Delete` returns without
error on a disk that holds nothing and `Has` says the object is there. -/
theorem delete_then_has_witness :
    sampleStore.Has (sampleStore.Write FS.empty "s3" "picture_0.png" (bytesReader sampleData)).2
      "s3" "picture_0.png" = true ∧
    sampleStore.Has
      ((sampleStore.Write FS.empty "s3" "picture_0.png" (bytesReader sampleData)).2.without
        ("3000_network/s3" ++ "/" ++ (CASPathTransformFunc "picture_0.png").FirstPathName))
      "s3" "picture_0.png" = false ∧
    (stringBytes (sampleLongStore.Root ++ "/" ++ "s3" ++ "/" ++
      (sampleLongStore.PathTransformFunc "picture_0.png").FirstPathName)).length = 4024 ∧
    (stringBytes (sampleLongStore.fullPathWithRoot "s3" "picture_0.png")).length = 4107 ∧
    sampleLongStore.Has
      (FS.empty.without (sampleLongStore.Root ++ "/" ++ "s3" ++ "/" ++
        (sampleLongStore.PathTransformFunc "picture_0.png").FirstPathName))
      "s3" "picture_0.png" = true ∧
    sampleDefaultStore.Root ++ "/" ++ "s3" ++ "/" ++
      (sampleDefaultStore.PathTransformFunc sampleLongKey).FirstPathName = "3000_network/s3/k" ∧
    (stringBytes (sampleDefaultStore.fullPathWithRoot "s3" sampleLongKey)).length = 4111 ∧
    sampleDefaultStore.Has
      (FS.empty.without (sampleDefaultStore.Root ++ "/" ++ "s3" ++ "/" ++
        (sampleDefaultStore.PathTransformFunc sampleLongKey).FirstPathName))
      "s3" sampleLongKey = true :=
  ⟨by decide!,
   (delete_then_has sampleStore
    (sampleStore.Write FS.empty "s3" "picture_0.png" (bytesReader sampleData)).2 _
    "s3" "picture_0.png"
    (osRemoveAll_child _ "3000_network/s3" (CASPathTransformFunc "picture_0.png").FirstPathName
      (by decide!) (by decide!) (by decide!) (by decide!) (by decide!) (by decide!))).1
    (by decide!),
   by decide!, by decide!,
   (delete_then_has sampleLongStore FS.empty _ "s3" "picture_0.png"
    (osRemoveAll_child FS.empty (sampleLongStore.Root ++ "/" ++ "s3")
      (sampleLongStore.PathTransformFunc "picture_0.png").FirstPathName
      (by decide!) (by decide!) (by decide!) (by decide!) (by decide!)
      (fun _ _ => rfl))).2 (by decide!),
   by decide!, by decide!,
   (delete_then_has sampleDefaultStore FS.empty _ "s3" sampleLongKey
    (osRemoveAll_child FS.empty (sampleDefaultStore.Root ++ "/" ++ "s3")
      (sampleDefaultStore.PathTransformFunc sampleLongKey).FirstPathName
      (by decide!) (by decide!) (by decide!) (by decide!) (by decide!)
      (fun _ _ => rfl))).2 (by decide!)⟩

/-- C6, example: 22 bytes written over an object of 44 bytes are read back as written. -/
theorem write_then_read_witness :
    ∃ rd, sampleStore.Read
        (sampleStore.Write
          (sampleStore.Write FS.empty "s3" "picture_0.png"
            (bytesReader (sampleData ++ sampleData))).2
          "s3" "picture_0.png" (bytesReader sampleData)).2 "s3" "picture_0.png" =
        Except.ok (22, rd) ∧ rd.data = sampleData :=
  (write_then_read sampleStore
    (sampleStore.Write FS.empty "s3" "picture_0.png" (bytesReader (sampleData ++ sampleData))).2
    "s3" "picture_0.png" (bytesReader sampleData) 22 (by decide!)).2

set_option maxRecDepth 100000 in
/-- C8, example: for the 22 bytes of `main` the stream has 38 bytes and the recipient reads
an object of 38 bytes back. -/
theorem store_size_accounting_witness :
    (sampleSender.storeStream Env.sample (bytesReader sampleData) sampleRand).flatten.length = 38 ∧
    (sampleReceiver.handleMessageStoreFile ":5000"
        { ID := "s3", Key := hashKey "picture_0.png", Size := 38 }).2.store.Read
      (sampleReceiver.handleMessageStoreFile ":5000"
        { ID := "s3", Key := hashKey "picture_0.png", Size := 38 }).2.fs
      "s3" (hashKey "picture_0.png") =
        Except.ok (38, bytesReader
          (sampleSender.storeStream Env.sample (bytesReader sampleData) sampleRand).flatten) :=
  have h := store_size_accounting Env.sample sampleSender sampleReceiver "picture_0.png" ":5000"
    (bytesReader sampleData) sampleRand
    { inbox := deliver { chunks := [] }
        (sampleSender.storeStream Env.sample (bytesReader sampleData) sampleRand ++ [])
      outbox := [] } []
    (by decide!) (by decide!) (by decide!) (by decide!) rfl rfl (by decide!)
  ⟨h.2.2.1, h.2.2.2.2⟩

set_option maxRecDepth 100000 in
/-- C9, example: where the recipient holds the object for the key `picture_0.png`. -/
theorem remote_store_filename_witness :
    (sampleReceiver.handleMessage ":5000"
        (sampleSender.storeMessage "picture_0.png" 22)).2.fs
      ("3000_network" ++ "/" ++ "s3" ++ "/" ++
        stringsJoin (casSegments (hashKey "picture_0.png")) "/" ++ "/" ++
        hexEncodeToString (sha1Sum (stringBytes
          (hexEncodeToString (md5Sum (stringBytes "picture_0.png"))))))
      = some (Node.file
        (sampleSender.storeStream Env.sample (bytesReader sampleData) sampleRand).flatten) :=
  (remote_store_filename Env.sample sampleSender sampleReceiver "picture_0.png" ":5000"
    (bytesReader sampleData) sampleRand
    { inbox := deliver { chunks := [] }
        (sampleSender.storeStream Env.sample (bytesReader sampleData) sampleRand ++ [])
      outbox := [] } []
    rfl (by decide!) (by decide!) (by decide!) rfl rfl (by decide!) (by decide!)).2.1

/-! ## The read loop on read errors -/

theorem decode_type_byte_error (final : GoError) (msg : RPC) :
    DefaultDecoder.Decode { chunks := [], final := final } msg =
      (none, msg, { chunks := [], final := final }) := by
  simp [DefaultDecoder.Decode, Reader.Read]

theorem handleConnLoop_type_byte_error (addr : String) (onStream : Reader → Reader)
    (final : GoError) (fuel : Nat) (pub : List RPC) :
    handleConnLoop addr onStream fuel { chunks := [], final := final } pub =
      { published := pub ++ List.replicate fuel { From := addr, Payload := [], Stream := false }
        conn := { chunks := [], final := final }
        dropped := none } := by
  induction fuel generalizing pub with
  | zero => simp [handleConnLoop]
  | succ n ih =>
    simp only [handleConnLoop, decode_type_byte_error, Bool.false_eq_true, if_false]
    rw [ih]
    simp [List.replicate_succ]

/-- C11: what `handleConn` does on read errors. When the read of the type byte of a frame
fails (`io.EOF` on a closed connection or any other error), `DefaultDecoder.Decode` returns no
error: after any number of turns the read loop has not returned, the connection is not
dropped, and every turn has published an empty RPC on the consumer channel. When the read
of the payload fails, the loop returns with that error, the connection is dropped and
nothing is published. -/
theorem handleConn_type_byte_error_not_dropped (addr : String) (onStream : Reader → Reader)
    (final : GoError) (fuel : Nat) :
    TCPTransport.handleConn none none addr onStream fuel { chunks := [], final := final } =
      { published := List.replicate fuel { From := addr, Payload := [], Stream := false }
        conn := { chunks := [], final := final }
        dropped := none } ∧
    (∀ (final : GoError) (n : Nat),
      TCPTransport.handleConn none none addr onStream (n + 1)
          { chunks := [[IncomingMessage]], final := final } =
        { published := [], conn := { chunks := [], final := final }, dropped := some final }) := by
  constructor
  · simp [TCPTransport.handleConn, handleConnLoop_type_byte_error]
  · intro final n
    simp [TCPTransport.handleConn, handleConnLoop, DefaultDecoder.Decode, Reader.Read,
      IncomingMessage, IncomingStream]

/-! ## Decryption and short reads -/

theorem copyDecrypt_first_read (env : Env) (key : List Byte) (hk : key.length = 32)
    (c1 : List Byte) (rest : List (List Byte)) (hc1 : c1.length ≤ 16) :
    (copyDecrypt env key { chunks := c1 :: rest, final := GoError.EOF }).result =
      Except.ok (16 + rest.flatten.length) ∧
    (copyDecrypt env key { chunks := c1 :: rest, final := GoError.EOF }).written.flatten =
      ctrXor env key (c1 ++ List.replicate (16 - c1.length) 0) 0 rest.flatten := by
  have h := copyStream_spec env key (c1 ++ List.replicate (16 - c1.length) 0)
    ⟨rest, GoError.EOF⟩ rfl
  simp only [copyDecrypt, aesNewCipher_32 key hk, Reader.Read, hc1, if_true]
  exact ⟨h.1, h.2.1⟩

/-- C12: what `copyDecrypt` does when the first `Read` of the source is short. For every
32-byte key and every source whose first `Read` delivers fewer than 16 bytes, no error is
returned, the counter block is those bytes filled up with zeros, and every byte that
follows, the rest of the 16 IV bytes included, goes through the transform to `dst`. -/
theorem copyDecrypt_short_first_read (env : Env) (key : List Byte) (hk : key.length = 32)
    (c1 : List Byte) (rest : List (List Byte)) (hc1 : c1.length < 16) :
    (copyDecrypt env key { chunks := c1 :: rest, final := GoError.EOF }).result =
      Except.ok (16 + rest.flatten.length) ∧
    (copyDecrypt env key { chunks := c1 :: rest, final := GoError.EOF }).written.flatten =
      ctrXor env key (c1 ++ List.replicate (16 - c1.length) 0) 0 rest.flatten ∧
    (copyDecrypt env key { chunks := c1 :: rest, final := GoError.EOF }).written.flatten.length =
      rest.flatten.length := by
  have h := copyDecrypt_first_read env key hk c1 rest (by omega)
  exact ⟨h.1, h.2, by rw [h.2, ctrXor_length]⟩

set_option maxRecDepth 100000 in
/-- C12, example: the 38 bytes `copyEncrypt` wrote for the 22 bytes of `main`. Read from a
buffer they decrypt to the content; delivered as 5 and 33 bytes, 33 bytes other than the
content are written; a source of 5 bytes in all gives no error. -/
theorem copyDecrypt_short_first_read_witness :
    sampleCipher.length = 38 ∧
    (copyDecrypt Env.sample sampleKey
      { chunks := [sampleCipher.take 5, sampleCipher.drop 5], final := GoError.EOF }
      ).written.flatten.length = 33 ∧
    (copyDecrypt Env.sample sampleKey
      { chunks := [sampleCipher.take 5, sampleCipher.drop 5], final := GoError.EOF }
      ).written.flatten ≠ sampleData ∧
    (copyDecrypt Env.sample sampleKey (bytesReader sampleCipher)).written.flatten = sampleData ∧
    (copyDecrypt Env.sample sampleKey
      { chunks := [sampleCipher.take 5], final := GoError.EOF }).result = Except.ok 16 :=
  ⟨by decide!,
   (copyDecrypt_short_first_read Env.sample sampleKey (by decide!) (sampleCipher.take 5)
      [sampleCipher.drop 5] (by decide!)).2.2.trans (by decide!),
   by decide!, by decide!,
   (copyDecrypt_short_first_read Env.sample sampleKey (by decide!) (sampleCipher.take 5)
      [] (by decide!)).1⟩

/-! ## What `Delete` removes and what it leaves -/

/-- The path of an object, cut after the first segment of its path name. -/
theorem fullPath_cut (s : Store) (id key : String) :
    ∃ tail, (s.fullPathWithRoot id key).data =
      s.Root.data ++ '/' :: (id.data ++ '/' ::
        ((s.PathTransformFunc key).FirstPathName.data ++ '/' :: tail)) := by
  rcases firstPathName_spec (s.PathTransformFunc key) with h | ⟨rest, h⟩
  · exact ⟨(s.PathTransformFunc key).Filename.data, by
      simp [Store.fullPathWithRoot, PathKey.FullPath, String.data_append, ← h]⟩
  · exact ⟨rest ++ '/' :: (s.PathTransformFunc key).Filename.data, by
      simp [Store.fullPathWithRoot, PathKey.FullPath, String.data_append, h]⟩

/-- An object is at or under the directory that `Delete owner key` removes only if it is an
object of that owner with the same first segment. -/
theorem under_delete_dir (s : Store) (owner key id' key' : String)
    (hid : id' = owner ∨ ('/' ∉ id'.data ∧ '/' ∉ owner.data))
    (h : s.fullPathWithRoot id' key' =
        s.Root ++ "/" ++ owner ++ "/" ++ (s.PathTransformFunc key).FirstPathName ∨
      s.Root ++ "/" ++ owner ++ "/" ++ (s.PathTransformFunc key).FirstPathName ∈
        pathAncestors (s.fullPathWithRoot id' key')) :
    id' = owner ∧
      (s.PathTransformFunc key').FirstPathName = (s.PathTransformFunc key).FirstPathName := by
  obtain ⟨tail, hcut⟩ := fullPath_cut s id' key'
  have hf := firstPathName_no_sep (s.PathTransformFunc key)
  have hf' := firstPathName_no_sep (s.PathTransformFunc key')
  -- both cases give the same equation up to what follows the first segment
  have heq : ∃ u, id'.data ++ '/' :: ((s.PathTransformFunc key').FirstPathName.data ++ '/' :: tail)
      = owner.data ++ '/' :: ((s.PathTransformFunc key).FirstPathName.data ++ u) ∧
      (u = [] ∨ ∃ v, u = '/' :: v) := by
    rcases h with h | h
    · refine ⟨[], ?_, Or.inl rfl⟩
      have := congrArg String.data h
      rw [hcut] at this
      simp only [String.data_append, List.append_assoc] at this
      have := List.append_cancel_left this
      simpa using this
    · rw [mem_pathAncestors] at h
      obtain ⟨_, rest, h⟩ := h
      refine ⟨'/' :: rest, ?_, Or.inr ⟨rest, rfl⟩⟩
      rw [hcut] at h
      simp only [String.data_append, List.append_assoc] at h
      have := List.append_cancel_left h
      simpa using this
  obtain ⟨u, he, hu⟩ := heq
  have hido : id' = owner := by
    rcases hid with e | ⟨h1, h2⟩
    · exact e
    · exact String.ext (sepfree_eq _ _ _ _ h1 h2 he)
  subst hido
  refine ⟨rfl, ?_⟩
  have he' := List.append_cancel_left he
  simp only [List.cons.injEq, true_and] at he'
  rcases hu with rfl | ⟨v, rfl⟩
  · exfalso
    apply hf
    rw [List.append_nil] at he'
    rw [← he']
    simp
  · exact String.ext (sepfree_eq _ _ _ _ hf' hf he')

theorem dirName_no_sep (n : String) (h : isDirName n = true) : '/' ∉ n.data := by
  simp only [isDirName, Bool.and_eq_true, Bool.not_eq_true', List.contains_eq_any_beq,
    List.any_eq_false] at h
  intro hm
  have := h.2 '/' hm
  simp at this

/-- Removing a directory leaves what `os.Stat` says about a path that is not under it. -/
theorem without_osStat (fs : FS) (d p : String) (h1 : p ≠ d) (h2 : d ∉ pathAncestors p) :
    osStat (fs.without d) p = osStat fs p := by
  have hp : fs.without d p = fs p := by
    simp [FS.without, h1, h2]
  have hanc : ∀ a ∈ pathAncestors p, fs.without d a = fs a := by
    intro a ha
    unfold FS.without
    rw [if_neg]
    rintro (e | e)
    · exact h2 (e ▸ ha)
    · exact h2 (pathAncestors_trans _ _ _ e ha)
  have hany : (pathAncestors p).any (fun a => Node.isFile (fs.without d a)) =
      (pathAncestors p).any (fun a => Node.isFile (fs a)) := by
    rw [Bool.eq_iff_iff]
    simp only [List.any_eq_true]
    constructor
    · rintro ⟨a, ha, hf⟩
      exact ⟨a, ha, by rw [← hanc a ha]; exact hf⟩
    · rintro ⟨a, ha, hf⟩
      exact ⟨a, ha, by rw [hanc a ha]; exact hf⟩
  unfold osStat
  rw [hp, hany]

/-- `Delete owner key` leaves what `os.Stat` says about every object that is not one of that
owner with the same first segment. -/
theorem delete_osStat (s : Store) (fs fs' : FS) (owner key id' key' : String)
    (hdel : s.Delete fs owner key = Except.ok fs')
    (hid : id' = owner ∨ ('/' ∉ id'.data ∧ '/' ∉ owner.data))
    (hne : ¬ (id' = owner ∧
      (s.PathTransformFunc key').FirstPathName = (s.PathTransformFunc key).FirstPathName)) :
    fs' (s.fullPathWithRoot id' key') = fs (s.fullPathWithRoot id' key') ∧
    osStat fs' (s.fullPathWithRoot id' key') = osStat fs (s.fullPathWithRoot id' key') := by
  have hd0 : s.Root ++ "/" ++ owner ++ "/" ++ (s.PathTransformFunc key).FirstPathName ≠ "" := by
    intro e
    have := congrArg String.data e
    simp [String.data_append] at this
  have hw := (osRemoveAll_ok fs fs' _ (by simpa [Store.Delete] using hdel) hd0).1
  have h1 : s.fullPathWithRoot id' key' ≠
      s.Root ++ "/" ++ owner ++ "/" ++ (s.PathTransformFunc key).FirstPathName :=
    fun e => hne (under_delete_dir s owner key id' key' hid (Or.inl e))
  have h2 : s.Root ++ "/" ++ owner ++ "/" ++ (s.PathTransformFunc key).FirstPathName ∉
      pathAncestors (s.fullPathWithRoot id' key') :=
    fun e => hne (under_delete_dir s owner key id' key' hid (Or.inr e))
  rw [hw]
  exact ⟨by simp [FS.without, h1, h2], without_osStat fs _ _ h1 h2⟩

/-- C13: with the content-addressed transform, a root folder without a `..` component and an
owner id that is a directory name, when `Store.Delete owner key` returns without error:
every object of that owner whose first 5-character segment is that of `key` is gone (the
object itself and its siblings): nothing is at its path, `Read` fails, and `Has` is false
unless the path is too long for `os.Stat`. For every key under another first segment of the
same owner, and for every key of another owner whose id is a directory name, what is at the
path of the object, what `Has` says and what `Read` returns (the size and the content) are
the same as before. -/
theorem delete_removes_first_segment (s : Store) (fs fs' : FS) (owner key : String)
    (hcas : s.PathTransformFunc = CASPathTransformFunc)
    (_hroot : ".." ∉ stringsSplit s.Root '/')
    (howner : isDirName owner = true)
    (hdel : s.Delete fs owner key = Except.ok fs') :
    (CASPathTransformFunc key).FirstPathName.length = 5 ∧
    (∀ key', (CASPathTransformFunc key').FirstPathName = (CASPathTransformFunc key).FirstPathName →
      fs' (s.fullPathWithRoot owner key') = none ∧
      s.Has fs' owner key' = pathTooLong (s.fullPathWithRoot owner key') ∧
      s.Read fs' owner key' = Except.error
        (if pathTooLong (s.fullPathWithRoot owner key') then GoError.ENAMETOOLONG
          else GoError.ErrNotExist)) ∧
    (∀ key',
      (CASPathTransformFunc key').FirstPathName ≠ (CASPathTransformFunc key).FirstPathName →
      fs' (s.fullPathWithRoot owner key') = fs (s.fullPathWithRoot owner key') ∧
      s.Has fs' owner key' = s.Has fs owner key' ∧
      s.Read fs' owner key' = s.Read fs owner key') ∧
    (∀ id' key', id' ≠ owner → isDirName id' = true →
      fs' (s.fullPathWithRoot id' key') = fs (s.fullPathWithRoot id' key') ∧
      s.Has fs' id' key' = s.Has fs id' key' ∧
      s.Read fs' id' key' = s.Read fs id' key') := by
  have hd0 : s.Root ++ "/" ++ owner ++ "/" ++ (s.PathTransformFunc key).FirstPathName ≠ "" := by
    intro e
    have := congrArg String.data e
    simp [String.data_append] at this
  have hrm : osRemoveAll fs
      (s.Root ++ "/" ++ owner ++ "/" ++ (s.PathTransformFunc key).FirstPathName) =
      Except.ok fs' := by
    simpa [Store.Delete] using hdel
  have hw := (osRemoveAll_ok fs fs' _ hrm hd0).1
  refine ⟨cas_firstPathName_length key, ?_, ?_, ?_⟩
  · intro key' hfirst
    have hmem : s.Root ++ "/" ++ owner ++ "/" ++ (s.PathTransformFunc key).FirstPathName ∈
        pathAncestors (s.fullPathWithRoot owner key') := by
      have := delete_dir_mem_ancestors s owner key'
      rw [hcas] at this ⊢
      rw [← hfirst]
      exact this
    have hnone : fs' (s.fullPathWithRoot owner key') = none := by
      rw [hw]
      simp [FS.without, hmem]
    cases hlong : pathTooLong (s.fullPathWithRoot owner key') with
    | true =>
      refine ⟨hnone, has_of_too_long s fs' owner key' hlong, ?_⟩
      simp [Store.Read, Store.readStream, osOpen, osStat, hlong]
    | false =>
      have hstat := osRemoveAll_stat fs fs' _ _ hrm hmem hlong
      refine ⟨hnone, ?_, ?_⟩
      · simp [Store.Has, hstat]
      · simp [Store.Read, Store.readStream, osOpen, hstat]
  · intro key' hfirst
    obtain ⟨h1, h2⟩ := delete_osStat s fs fs' owner key owner key' hdel (Or.inl rfl)
      (by rw [hcas]; exact fun h => hfirst h.2)
    exact ⟨h1, by simp only [Store.Has, h2],
      by simp only [Store.Read, Store.readStream, osOpen, h2]⟩
  · intro id' key' hne hid'
    obtain ⟨h1, h2⟩ := delete_osStat s fs fs' owner key id' key' hdel
      (Or.inr ⟨dirName_no_sep id' hid', dirName_no_sep owner howner⟩) (fun h => hne h.1)
    exact ⟨h1, by simp only [Store.Has, h2],
      by simp only [Store.Read, Store.readStream, osOpen, h2]⟩

set_option maxHeartbeats 2000000 in
set_option maxRecDepth 100000 in
/-- C13, example: deleting `picture_0.png` of `s3` also removes `picture_1215339.png` of
`s3`, and leaves `picture_1.png` of `s3` and `picture_0.png` of `s1`. -/
theorem delete_removes_first_segment_witness :
    sampleStore.Has sampleDisk "s3" "picture_1215339.png" = true ∧
    sampleStore.Has (sampleDisk.without "3000_network/s3/d44bb") "s3" "picture_0.png" = false ∧
    sampleStore.Has (sampleDisk.without "3000_network/s3/d44bb") "s3" "picture_1215339.png"
      = false ∧
    sampleStore.Read (sampleDisk.without "3000_network/s3/d44bb") "s3" "picture_1.png" =
      Except.ok (22, bytesReader sampleData) ∧
    sampleStore.Read (sampleDisk.without "3000_network/s3/d44bb") "s1" "picture_0.png" =
      Except.ok (22, bytesReader sampleData) :=
  have h := delete_removes_first_segment sampleStore sampleDisk
    (sampleDisk.without "3000_network/s3/d44bb") "s3" "picture_0.png" rfl (by decide!)
    (by decide!)
    (osRemoveAll_child sampleDisk "3000_network/s3" "d44bb"
      (by decide!) (by decide!) (by decide!) (by decide!) (by decide!) (by decide!))
  ⟨by decide!,
   (h.2.1 "picture_0.png" rfl).2.1.trans (by decide!),
   (h.2.1 "picture_1215339.png" (by decide!)).2.1.trans (by decide!),
   (h.2.2.1 "picture_1.png" (by decide!)).2.2.trans (by decide!),
   (h.2.2.2 "s1" "picture_0.png" (by decide!) (by decide!)).2.2.trans (by decide!)⟩

end P2P
